import Mathlib

/-!
A verification development for the noise-classification, importance-scoring
and flow-graph-assembly pipeline of the User-Flow-Mapper repository
(`NoiseReducer`, `FlowAnalyzer`, `UrlUtils`).

JavaScript `Map` and `Set` values are modelled as insertion-ordered
association lists (`List (String × β)` / `List String`); `Map.set` updates an
existing entry in place and appends a fresh one, `Set.add` appends only when
absent, matching the insertion-order iteration semantics of the source.
Floating-point scores are modelled as exact rationals; the fixed fractional
thresholds (0.85, 0.9, 0.7, 0.3, 0.1) are compared via cross-multiplied
integer arithmetic, which agrees with the double-precision comparisons of the
source at every integer-count argument.
-/

namespace UserFlowMapper

/-! ## Generic list, set and ordered-map helpers -/

/-- Boolean membership in a list, written with decidable equality. -/
def listHas {α : Type} [DecidableEq α] : List α → α → Bool
  | [], _ => false
  | y :: ys, x => if y = x then true else listHas ys x

/-- `Set.add`: append the element only when it is not already present. -/
def setAdd {α : Type} [DecidableEq α] (s : List α) (x : α) : List α :=
  if listHas s x then s else s ++ [x]

/-- `Map.get`: the value of the first entry with the given key, if any. -/
def mapGet? {β : Type} : List (String × β) → String → Option β
  | [], _ => none
  | (k', v) :: rest, k => if k' = k then some v else mapGet? rest k

/-- `Map.set`: update the entry in place when the key is present, else append. -/
def mapSet {β : Type} : List (String × β) → String → β → List (String × β)
  | [], k, v => [(k, v)]
  | (k', v') :: rest, k, v =>
    if k' = k then (k, v) :: rest else (k', v') :: mapSet rest k v

theorem listHas_iff_mem {α : Type} [DecidableEq α] (s : List α) (x : α) :
    listHas s x = true ↔ x ∈ s := by
  induction s with
  | nil => simp [listHas]
  | cons y ys ih =>
    by_cases h : y = x <;> simp [listHas, h, ih]
    exact fun hx => (h hx.symm).elim

theorem mem_setAdd {α : Type} [DecidableEq α] (s : List α) (x y : α) :
    y ∈ setAdd s x ↔ y ∈ s ∨ y = x := by
  unfold setAdd
  by_cases h : listHas s x = true
  · simp only [h, if_true]
    constructor
    · exact fun hy => Or.inl hy
    · rintro (hy | rfl)
      · exact hy
      · exact (listHas_iff_mem s y).mp h
  · simp [h, List.mem_append]

theorem setAdd_length_le {α : Type} [DecidableEq α] (s : List α) (x : α) :
    (setAdd s x).length ≤ s.length + 1 := by
  unfold setAdd
  split <;> simp

theorem length_le_setAdd_length {α : Type} [DecidableEq α] (s : List α) (x : α) :
    s.length ≤ (setAdd s x).length := by
  unfold setAdd
  split <;> simp

theorem mem_setAdd_self {α : Type} [DecidableEq α] (s : List α) (x : α) :
    x ∈ setAdd s x := (mem_setAdd s x x).mpr (Or.inr rfl)

theorem mem_setAdd_of_mem {α : Type} [DecidableEq α] (s : List α) (x y : α)
    (h : y ∈ s) : y ∈ setAdd s x := (mem_setAdd s x y).mpr (Or.inl h)

theorem mapGet?_eq_none_iff {β : Type} (m : List (String × β)) (k : String) :
    mapGet? m k = none ↔ k ∉ m.map Prod.fst := by
  induction m with
  | nil => simp [mapGet?]
  | cons e rest ih =>
    obtain ⟨k', v⟩ := e
    by_cases h : k' = k
    · subst h
      simp [mapGet?]
    · simp only [mapGet?, if_neg h, List.map_cons, List.mem_cons, ih]
      constructor
      · intro hnot hor
        rcases hor with hk | hk
        · exact h hk.symm
        · exact hnot hk
      · intro hnot hk
        exact hnot (Or.inr hk)

theorem mapGet?_isSome_iff {β : Type} (m : List (String × β)) (k : String) :
    (mapGet? m k).isSome = true ↔ k ∈ m.map Prod.fst := by
  rw [Option.isSome_iff_ne_none, Ne, mapGet?_eq_none_iff]
  simp

theorem mapGet?_mapSet {β : Type} (m : List (String × β)) (k k' : String)
    (v : β) :
    mapGet? (mapSet m k v) k' = if k = k' then some v else mapGet? m k' := by
  induction m with
  | nil =>
    by_cases hk : k = k' <;> simp [mapSet, mapGet?, hk]
  | cons e rest ih =>
    obtain ⟨k₀, v₀⟩ := e
    by_cases h₀ : k₀ = k
    · subst h₀
      by_cases hk : k₀ = k' <;> simp [mapSet, mapGet?, hk]
    · by_cases hk₀' : k₀ = k'
      · subst hk₀'
        have hne : k ≠ k₀ := fun h => h₀ h.symm
        simp [mapSet, mapGet?, h₀, hne]
      · simp [mapSet, mapGet?, h₀, hk₀', ih]

theorem mapSet_map_fst_of_mem {β : Type} (m : List (String × β)) (k : String)
    (v : β) (h : k ∈ m.map Prod.fst) :
    (mapSet m k v).map Prod.fst = m.map Prod.fst := by
  induction m with
  | nil => simp at h
  | cons e rest ih =>
    obtain ⟨k₀, v₀⟩ := e
    by_cases h₀ : k₀ = k
    · simp [mapSet, h₀]
    · simp only [List.map_cons, List.mem_cons] at h
      rcases h with h | h
      · exact absurd h.symm h₀
      · simp [mapSet, h₀, ih h]

theorem mapSet_map_fst_of_not_mem {β : Type} (m : List (String × β))
    (k : String) (v : β) (h : k ∈ m.map Prod.fst → False) :
    (mapSet m k v).map Prod.fst = m.map Prod.fst ++ [k] := by
  induction m with
  | nil => simp [mapSet]
  | cons e rest ih =>
    obtain ⟨k₀, v₀⟩ := e
    by_cases h₀ : k₀ = k
    · exact absurd (by simp [h₀]) h
    · have : k ∈ rest.map Prod.fst → False := fun hm => h (by simp [hm])
      simp [mapSet, h₀, ih this]

theorem mapGet?_of_mem_nodup {β : Type} (m : List (String × β)) (k : String)
    (v : β) (hmem : (k, v) ∈ m) (hnd : (m.map Prod.fst).Nodup) :
    mapGet? m k = some v := by
  induction m with
  | nil => simp at hmem
  | cons e rest ih =>
    obtain ⟨k₀, v₀⟩ := e
    simp only [List.map_cons, List.nodup_cons] at hnd
    rcases List.mem_cons.mp hmem with h | h
    · injection h with h1 h2
      subst h1; subst h2
      simp [mapGet?]
    · have hk₀ : k₀ ≠ k := by
        intro hkk
        subst hkk
        exact hnd.1 (List.mem_map.mpr ⟨(k₀, v), h, rfl⟩)
      simp only [mapGet?, if_neg hk₀]
      exact ih h hnd.2

/-! ## Character-sequence helpers (model of the JS string operations used) -/

/-- Does `pat` occur at the start of `s`? (`String.prototype.startsWith`). -/
def startsWithSeq : List Char → List Char → Bool
  | [], _ => true
  | _ :: _, [] => false
  | a :: as, b :: bs => if a = b then startsWithSeq as bs else false

/-- Does `pat` occur anywhere inside `s`? (`String.prototype.includes`,
unanchored regex match). -/
def containsSeq (pat : List Char) : List Char → Bool
  | [] => startsWithSeq pat []
  | c :: rest => startsWithSeq pat (c :: rest) || containsSeq pat rest

/-- Substring test on strings, the model of `s.includes(pat)` and of an
unanchored regex literal. -/
def strContains (s pat : String) : Bool := containsSeq pat.data s.data

/-- Suffix test on strings, the model of an `$`-anchored regex literal. -/
def strEndsWith (s pat : String) : Bool :=
  startsWithSeq pat.data.reverse s.data.reverse

/-- Lower-casing, the model of `String.prototype.toLowerCase` (the source only
ever applies it to ASCII URLs and titles). -/
def lowerStr (s : String) : String := ⟨s.data.map Char.toLower⟩

/-- Whitespace trimming, the model of `String.prototype.trim`. -/
def trimStr (s : String) : String :=
  ⟨((s.data.dropWhile Char.isWhitespace).reverse.dropWhile
      Char.isWhitespace).reverse⟩

/-- `key.split("::")` specialised to the separator `"::"` used by the edge
builder: splits on non-overlapping occurrences scanned left to right. -/
def splitDoubleColon : List Char → List (List Char)
  | [] => [[]]
  | [c] => [[c]]
  | c₁ :: c₂ :: rest =>
    if c₁ = ':' ∧ c₂ = ':' then [] :: splitDoubleColon rest
    else
      match splitDoubleColon (c₂ :: rest) with
      | [] => [[c₁]]
      | p :: ps => (c₁ :: p) :: ps

theorem splitDoubleColon_ne_nil (s : List Char) : splitDoubleColon s ≠ [] := by
  induction s with
  | nil => simp [splitDoubleColon]
  | cons c rest ih =>
    cases rest with
    | nil => simp [splitDoubleColon]
    | cons c₂ rest₂ =>
      by_cases h : c = ':' ∧ c₂ = ':'
      · simp [splitDoubleColon, h]
      · simp only [splitDoubleColon, if_neg h]
        cases hs : splitDoubleColon (c₂ :: rest₂) with
        | nil => simp
        | cons p ps => simp

theorem splitDoubleColon_no_sep (s : List Char)
    (h : containsSeq [':', ':'] s = false) : splitDoubleColon s = [s] := by
  induction s with
  | nil => simp [splitDoubleColon]
  | cons c rest ih =>
    cases rest with
    | nil => simp [splitDoubleColon]
    | cons c₂ rest₂ =>
      rw [containsSeq] at h
      have h' := Bool.or_eq_false_iff.mp h
      have hcol : ¬(c = ':' ∧ c₂ = ':') := by
        rintro ⟨rfl, rfl⟩
        simp [startsWithSeq] at h'
      simp only [splitDoubleColon, if_neg hcol]
      rw [ih h'.2]

theorem splitDoubleColon_append (s t : List Char)
    (hs : containsSeq [':', ':'] s = false)
    (hlast : s.getLast? ≠ some ':') :
    splitDoubleColon (s ++ ':' :: ':' :: t) = s :: splitDoubleColon t := by
  induction s with
  | nil => simp [splitDoubleColon]
  | cons c rest ih =>
    rw [containsSeq] at hs
    have hs' := Bool.or_eq_false_iff.mp hs
    cases rest with
    | nil =>
      have hc : c ≠ ':' := by
        intro hcc
        subst hcc
        simp [List.getLast?] at hlast
      simp only [List.cons_append, List.nil_append]
      simp [splitDoubleColon, hc]
    | cons r rest' =>
      have hcr : ¬(c = ':' ∧ r = ':') := by
        rintro ⟨rfl, rfl⟩
        simp [startsWithSeq] at hs'
      have hlast' : (r :: rest').getLast? ≠ some ':' := by
        rwa [List.getLast?_cons_cons] at hlast
      have htail := ih hs'.2 hlast'
      simp only [List.cons_append] at htail ⊢
      simp only [splitDoubleColon, if_neg hcr]
      rw [htail]

/-! ## Exact fractions

JavaScript numbers are modelled as exact fractions.  Core `Rat` arithmetic
normalizes through `Nat.gcd`, whose well-founded recursion the kernel cannot
reduce, so concrete runs of the pipeline could not be checked with `decide`;
`Frac` keeps unreduced numerator/denominator pairs (every operation is
structural) and is interpreted into `ℚ` by `Frac.toRat` for algebraic
reasoning.  Denominators are positive for every value the pipeline builds. -/

structure Frac : Type where
  num : Int
  dpred : Nat
deriving DecidableEq, Repr

namespace Frac

/-- The (always positive) denominator: its predecessor is stored, so that
`den` can never be zero and the `toRat` interpretation lemmas below need no
side conditions. -/
def den (f : Frac) : Nat := f.dpred + 1

/-- Build the fraction `n / d` (for positive `d`). -/
def frac (n : Int) (d : Nat) : Frac := ⟨n, d - 1⟩

/-- Embed a natural number count. -/
def ofNat (n : Nat) : Frac := ⟨(n : Int), 0⟩

instance instOfNatFrac (n : Nat) : OfNat Frac n := ⟨⟨(n : Int), 0⟩⟩

/-- Exact addition without normalization. -/
def add (a b : Frac) : Frac :=
  ⟨a.num * (b.den : Int) + b.num * (a.den : Int),
   a.dpred * b.dpred + a.dpred + b.dpred⟩

/-- Exact multiplication without normalization. -/
def mul (a b : Frac) : Frac :=
  ⟨a.num * b.num, a.dpred * b.dpred + a.dpred + b.dpred⟩

instance : Add Frac := ⟨add⟩

instance : Mul Frac := ⟨mul⟩

/-- Order by cross-multiplication (denominators are always positive). -/
def le (a b : Frac) : Prop := a.num * (b.den : Int) ≤ b.num * (a.den : Int)

instance : LE Frac := ⟨le⟩

instance instDecidableLeFrac (a b : Frac) : Decidable (a ≤ b) :=
  inferInstanceAs (Decidable (a.num * (b.den : Int) ≤ b.num * (a.den : Int)))

/-- The rational value of a fraction. -/
def toRat (f : Frac) : ℚ := (f.num : ℚ) / (f.den : ℚ)

theorem den_ne_zero (f : Frac) : f.den ≠ 0 := Nat.succ_ne_zero f.dpred

theorem den_cast_ne_zero (f : Frac) : ((f.den : ℚ)) ≠ 0 := by
  exact_mod_cast f.den_ne_zero

@[simp] theorem den_add (a b : Frac) : (a + b).den = a.den * b.den := by
  show (a.dpred * b.dpred + a.dpred + b.dpred) + 1 =
    (a.dpred + 1) * (b.dpred + 1)
  ring

@[simp] theorem den_mul (a b : Frac) : (a * b).den = a.den * b.den := by
  show (a.dpred * b.dpred + a.dpred + b.dpred) + 1 =
    (a.dpred + 1) * (b.dpred + 1)
  ring

@[simp] theorem num_add (a b : Frac) :
    (a + b).num = a.num * (b.den : Int) + b.num * (a.den : Int) := rfl

@[simp] theorem num_mul (a b : Frac) : (a * b).num = a.num * b.num := rfl

@[simp] theorem den_ofNat (n : Nat) : (ofNat n).den = 1 := rfl

@[simp] theorem den_instOfNat (n : Nat) :
    (no_index (OfNat.ofNat n) : Frac).den = 1 := rfl

theorem toRat_add (a b : Frac) : (a + b).toRat = a.toRat + b.toRat := by
  have ha := a.den_cast_ne_zero
  have hb := b.den_cast_ne_zero
  simp only [toRat, num_add, den_add]
  push_cast
  field_simp
  try ring

theorem toRat_mul (a b : Frac) : (a * b).toRat = a.toRat * b.toRat := by
  have ha := a.den_cast_ne_zero
  have hb := b.den_cast_ne_zero
  simp only [toRat, num_mul, den_mul]
  push_cast
  field_simp
  try ring

@[simp] theorem toRat_ofNat (n : Nat) : (ofNat n).toRat = (n : ℚ) := by
  show ((n : Int) : ℚ) / ((0 + 1 : Nat) : ℚ) = (n : ℚ)
  norm_num

@[simp] theorem toRat_instOfNat (n : Nat) :
    (no_index (OfNat.ofNat n) : Frac).toRat = (n : ℚ) := by
  show ((n : Int) : ℚ) / ((0 + 1 : Nat) : ℚ) = (n : ℚ)
  norm_num

end Frac

/-! ## Data model -/

/-- Modelled from the spec: `LinkPosition` (src/crawler/types is absent from
the source tree; §3 lists the enum `{HEADER, NAVIGATION, CONTENT, FOOTER,
SIDEBAR}`). -/
inductive LinkPosition : Type
  | header
  | navigation
  | content
  | footer
  | sidebar
deriving DecidableEq, Repr

/-- Modelled from the spec: `LinkRecord` (§3) — the `Link` interface of the
absent src/crawler/types: `{href, text, position, context}`. -/
structure Link : Type where
  href : String
  text : String
  position : LinkPosition
  context : String
deriving DecidableEq, Repr

/-- Modelled from the spec: `PageRecord` (§3) — the `PageMetadata` interface
of the absent src/crawler/types: `{url, title, depth, outgoingLinks}` (the
timestamp plays no role in the analysis pipeline and is omitted). -/
structure PageMetadata : Type where
  url : String
  title : String
  depth : Nat
  outgoingLinks : List Link
deriving DecidableEq, Repr

/-- The ordered `Map<string, PageMetadata>` of crawled pages. -/
abbrev Pages : Type := List (String × PageMetadata)

/-- `NavigationInfo` (src NoiseReducer). -/
structure NavigationInfo : Type where
  url : String
  frequency : Frac
  appearingOnPages : Nat
  totalPages : Nat
  linkText : String
  positions : List LinkPosition
  isStructural : Bool
  isGlobalNav : Bool
deriving DecidableEq, Repr

/-- `NoiseReductionResult` (src NoiseReducer). -/
structure NoiseReductionResult : Type where
  cleanedPages : Pages
  noiseLinks : List String
  noiseCategories : List (String × List String)
  globalNavigation : List (String × NavigationInfo)
  hubPages : List String
deriving DecidableEq, Repr

/-- `NodeType` (src analyzer/types). -/
inductive NodeType : Type
  | entry
  | content
  | form
  | transaction
  | exit
deriving DecidableEq, Repr

/-- The nested `metadata` object of `FlowNode` (src analyzer/types). -/
structure FlowNodeMetadata : Type where
  depth : Nat
  pageTitle : String
  pathSegments : List String
deriving DecidableEq, Repr

/-- `FlowNode` (src analyzer/types). -/
structure FlowNode : Type where
  id : String
  label : String
  url : String
  type : NodeType
  metadata : FlowNodeMetadata
deriving DecidableEq, Repr

/-- `FlowEdge` (src analyzer/types). -/
structure FlowEdge : Type where
  source : String
  target : String
  weight : Nat
  label : String
deriving DecidableEq, Repr

/-- The `metadata` object of `UserFlow` (src analyzer/types). -/
structure UserFlowMetadata : Type where
  startUrl : String
  totalPages : Nat
  noiseFiltered : Nat
  crawlTimestamp : Nat
deriving DecidableEq, Repr

/-- `UserFlow` (src analyzer/types). -/
structure UserFlow : Type where
  nodes : List FlowNode
  edges : List FlowEdge
  metadata : UserFlowMetadata
deriving DecidableEq, Repr

/-! ## UrlUtils

`UrlUtils.normalize` delegates parsing to the platform's WHATWG `new URL`
builtin, which is not part of this repository.  The parser is therefore
modelled from the spec (§4.1): a URL is `scheme://host/path?query#fragment`;
the fragment is removed, query parameters are re-serialized sorted
lexicographically by key with a stable sort, and a single trailing slash is
stripped from the path unless the path is exactly `/`.  Percent-encoding is
modelled as the identity (it is a stable transformation in the builtin). -/

/-- A query parameter: key and value character sequences. -/
abbrev Param : Type := List Char × List Char

/-- Split at the first occurrence of a separator character; the second
component is `none` when the separator does not occur. -/
def splitFirstChar (sep : Char) : List Char → List Char × Option (List Char)
  | [] => ([], none)
  | c :: rest =>
    if c = sep then ([], some rest)
    else
      let p := splitFirstChar sep rest
      (c :: p.1, p.2)

/-- Split on every occurrence of a separator character
(`String.prototype.split` with a single-character separator). -/
def splitAll (sep : Char) : List Char → List (List Char)
  | [] => [[]]
  | c :: rest =>
    if c = sep then [] :: splitAll sep rest
    else
      match splitAll sep rest with
      | [] => [[c]]
      | p :: ps => (c :: p) :: ps

/-- Split at the first occurrence of `"://"`: scheme before, remainder after;
`none` when `"://"` does not occur (the URL is then malformed). -/
def splitScheme : List Char → Option (List Char × List Char)
  | [] => none
  | c :: rest =>
    if c = ':' ∧ startsWithSeq ['/', '/'] rest = true then
      some ([], rest.drop 2)
    else
      (splitScheme rest).map (fun p => (c :: p.1, p.2))

/-- Modelled from the spec: a parsed URL, the model of the WHATWG `URL`
object — `scheme://host` + path (always starting with `/`) + raw query. -/
structure ParsedUrl : Type where
  scheme : List Char
  host : List Char
  path : List Char
  query : List Char
deriving DecidableEq, Repr

/-- Modelled from the spec: the WHATWG URL parser.  Fragment first (dropped:
`parsed.hash = ""`), then query, then `scheme://`, then host up to the first
slash; an absent path re-serializes as `/`.  A URL without `://` is
malformed. -/
def urlParse (s : List Char) : Option ParsedUrl :=
  let beforeHash := (splitFirstChar '#' s).1
  let q := splitFirstChar '?' beforeHash
  match splitScheme q.1 with
  | none => none
  | some (scheme, rest) =>
    let h := splitFirstChar '/' rest
    some
      { scheme := scheme
        host := h.1
        path := match h.2 with | none => ['/'] | some p => '/' :: p
        query := (q.2).getD [] }

/-- Parse a raw query string into parameters
(`URLSearchParams`: split on `&`, drop empty segments, key before the first
`=`, value after it, empty value when `=` is absent). -/
def parseParams (q : List Char) : List Param :=
  (splitAll '&' q).filterMap fun seg =>
    if seg = [] then none
    else
      let p := splitFirstChar '=' seg
      some (p.1, (p.2).getD [])

/-- Serialize parameters back to a query string (`key=value` joined by `&`,
as `URLSearchParams.append` produces). -/
def joinParams : List Param → List Char
  | [] => []
  | [p] => p.1 ++ '=' :: p.2
  | p :: q :: rest => p.1 ++ '=' :: p.2 ++ '&' :: joinParams (q :: rest)

/-- Lexicographic comparison of character sequences by code point, the model
of the `localeCompare`-based key ordering the source sorts with. -/
def leChars : List Char → List Char → Bool
  | [], _ => true
  | _ :: _, [] => false
  | a :: as, b :: bs =>
    if a.val < b.val then true
    else if b.val < a.val then false
    else leChars as bs

/-- Stable insertion of a parameter into a key-sorted parameter list: the new
element goes before the first element it compares `≤` to, so equal keys keep
their original relative order. -/
def insertParam (p : Param) : List Param → List Param
  | [] => [p]
  | q :: qs => if leChars p.1 q.1 then p :: q :: qs else q :: insertParam p qs

/-- Stable sort of parameters by key (`Array.prototype.sort` is stable). -/
def sortParams : List Param → List Param
  | [] => []
  | p :: ps => insertParam p (sortParams ps)

/-- Strip a single trailing slash unless the path is exactly `/`
(the `pathname.endsWith("/") && pathname.length > 1` branch of the source). -/
def stripSlash (p : List Char) : List Char :=
  if p.getLast? = some '/' ∧ 1 < p.length then p.dropLast else p

/-- Re-serialize a parsed URL from its parts and parameter list. -/
def serializeUrl (scheme host path : List Char) (params : List Param) :
    List Char :=
  scheme ++ ':' :: '/' :: '/' :: host ++ path ++
    (match params with
     | [] => []
     | _ :: _ => '?' :: joinParams params)

namespace UrlUtils

/-- `UrlUtils.normalize` (src UrlUtils): parse; on failure return the input
unchanged; otherwise drop the fragment, sort the query parameters
lexicographically by key (stable), strip a single trailing slash, and
re-serialize. -/
def normalize (s : String) : String :=
  match urlParse s.data with
  | none => s
  | some u =>
    ⟨serializeUrl u.scheme u.host (stripSlash u.path)
      (sortParams (parseParams u.query))⟩

/-- `UrlUtils.getPathSegments` (src UrlUtils): the non-empty `/`-separated
path components; `[]` on parse failure. -/
def getPathSegments (url : String) : List String :=
  match urlParse url.data with
  | none => []
  | some u =>
    ((splitAll '/' u.path).filter (fun seg => seg ≠ [])).map
      (fun cs => (⟨cs⟩ : String))

end UrlUtils

/-! ## NoiseReducer

Thresholds of the source: `GLOBAL_NAV_THRESHOLD = 0.85`,
`HIGH_FREQUENCY_THRESHOLD = 0.75`, `HUB_PAGE_THRESHOLD = 0.9`, the
structural-position ratio `> 0.7` and the fallback ratio `< 0.1`.  All are
compared through cross-multiplied integer arithmetic, which coincides with
the source's double-precision comparisons on integer counts. -/

namespace NoiseReducer

/-- Accumulator of `identifyGlobalNavigation`: per-href set of pages it
appears on, representative anchor text, and the list of recorded positions. -/
structure GNAcc : Type where
  linkFrequency : List (String × List String)
  linkTextMap : List (String × String)
  linkPositionMap : List (String × List LinkPosition)

/-- One link of one page inside `identifyGlobalNavigation`'s counting loop
(the per-page `seenLinks` set deduplicates hrefs within a page). -/
def gnStep (pageUrl : String) (st : GNAcc × List String) (link : Link) :
    GNAcc × List String :=
  let acc := st.1
  let seen := st.2
  if listHas seen link.href then (acc, seen)
  else
    let seen := seen ++ [link.href]
    let acc :=
      if (mapGet? acc.linkFrequency link.href).isSome then acc
      else
        { acc with
          linkFrequency := acc.linkFrequency ++ [(link.href, [])]
          linkPositionMap := acc.linkPositionMap ++ [(link.href, [])] }
    let freqSet := (mapGet? acc.linkFrequency link.href).getD []
    let acc :=
      { acc with
        linkFrequency := mapSet acc.linkFrequency link.href
          (setAdd freqSet pageUrl) }
    let posList := (mapGet? acc.linkPositionMap link.href).getD []
    let acc :=
      { acc with
        linkPositionMap := mapSet acc.linkPositionMap link.href
          (posList ++ [link.position]) }
    let acc :=
      if ¬(mapGet? acc.linkTextMap link.href).isSome ∧ link.text ≠ "" then
        { acc with linkTextMap := mapSet acc.linkTextMap link.href link.text }
      else acc
    (acc, seen)

/-- `isStructuralNavigation` (src NoiseReducer): more than 70% of the
recorded positions lie in a structural region. -/
def isStructuralNavigation (positions : List LinkPosition) : Bool :=
  let structuralPositions :=
    [LinkPosition.header, LinkPosition.navigation, LinkPosition.footer,
     LinkPosition.sidebar]
  let structuralCount :=
    (positions.filter (fun pos => listHas structuralPositions pos)).length
  10 * structuralCount > 7 * positions.length

/-- `identifyGlobalNavigation` (src NoiseReducer): hrefs appearing on at
least 85% of all pages, with their collected evidence. -/
def identifyGlobalNavigation (pages : Pages) :
    List (String × NavigationInfo) :=
  let totalPages := pages.length
  let acc := pages.foldl
    (fun acc e => (e.2.outgoingLinks.foldl (gnStep e.1) (acc, [])).1)
    ⟨[], [], []⟩
  acc.linkFrequency.foldl
    (fun gn e =>
      if 20 * e.2.length ≥ 17 * totalPages then
        let positions := (mapGet? acc.linkPositionMap e.1).getD []
        gn ++ [(e.1,
          { url := e.1
            frequency := Frac.frac (e.2.length : Int) totalPages
            appearingOnPages := e.2.length
            totalPages := totalPages
            linkText := (mapGet? acc.linkTextMap e.1).getD ""
            positions := positions
            isStructural := isStructuralNavigation positions
            isGlobalNav := true })]
      else gn)
    []

/-- `identifyHubPages` (src NoiseReducer): pages linked from at least 90% of
all pages (distinct source pages). -/
def identifyHubPages (pages : Pages) : List String :=
  let totalPages := pages.length
  let incomingLinks := pages.foldl
    (fun m e =>
      e.2.outgoingLinks.foldl
        (fun m link =>
          mapSet m link.href (setAdd ((mapGet? m link.href).getD []) e.1))
        m)
    []
  incomingLinks.foldl
    (fun hubs e =>
      if 10 * e.2.length ≥ 9 * totalPages then setAdd hubs e.1 else hubs)
    []

/-- `identifyStructuralNoise` (src NoiseReducer): hrefs of links recorded in
FOOTER position (`noisePositions = [LinkPosition.FOOTER]`). -/
def identifyStructuralNoise (pages : Pages) : List String :=
  let noisePositions := [LinkPosition.footer]
  pages.foldl
    (fun structuralLinks e =>
      (e.2.outgoingLinks.filter
        (fun link => listHas noisePositions link.position)).foldl
        (fun s link => setAdd s link.href) structuralLinks)
    []

/-- The low-value deny-list of `identifyLowValueLinks`: logout variants are
case-insensitive substring matches, domains and schemes are case-sensitive
substring matches, `#`/`.rss`/`.xml` are suffix matches. -/
def isLowValueHref (href : String) : Bool :=
  strContains (lowerStr href) "logout" ||
  strContains (lowerStr href) "signout" ||
  strContains (lowerStr href) "sign-out" ||
  strContains (lowerStr href) "log-out" ||
  strContains href "twitter.com" ||
  strContains href "facebook.com" ||
  strContains href "linkedin.com" ||
  strContains href "instagram.com" ||
  strContains href "youtube.com" ||
  strContains href "t.co/" ||
  strEndsWith href "#" ||
  strContains href "javascript:" ||
  strContains href "mailto:" ||
  strContains href "tel:" ||
  strEndsWith href ".rss" ||
  strEndsWith href ".xml" ||
  strContains href "/feed"

/-- `identifyLowValueLinks` (src NoiseReducer). -/
def identifyLowValueLinks (pages : Pages) : List String :=
  pages.foldl
    (fun lowValueLinks e =>
      (e.2.outgoingLinks.filter (fun link => isLowValueHref link.href)).foldl
        (fun s link => setAdd s link.href) lowValueLinks)
    []

/-- `identifyRepetitiveLinks` (src NoiseReducer): hrefs sharing a normalized
anchor text (≥ 3 characters) that maps to hrefs appearing on at least 75% of
pages.  Computed by `reduceNoise` but never folded into the noise set. -/
def identifyRepetitiveLinks (pages : Pages) : List String :=
  let totalPages := pages.length
  let linkTextFrequency := pages.foldl
    (fun m e =>
      e.2.outgoingLinks.foldl
        (fun m link =>
          let normalizedText := trimStr (lowerStr link.text)
          if normalizedText = "" ∨ normalizedText.length < 3 then m
          else
            mapSet m normalizedText
              (setAdd ((mapGet? m normalizedText).getD []) link.href))
        m)
    []
  linkTextFrequency.foldl
    (fun repetitiveLinks e =>
      if 4 * e.2.length ≥ 3 * totalPages then
        e.2.foldl setAdd repetitiveLinks
      else repetitiveLinks)
    []

/-- The combined aggressive noise set:
`new Set([...globalNav.keys(), ...structuralNoise, ...lowValueLinks])`. -/
def allNoiseLinksOf (pages : Pages) : List String :=
  (((identifyGlobalNavigation pages).map Prod.fst ++
    identifyStructuralNoise pages) ++ identifyLowValueLinks pages).foldl
    setAdd []

/-- Pages with every link whose href lies in the given noise set removed. -/
def cleanPages (pages : Pages) (noise : List String) : Pages :=
  pages.map fun e =>
    (e.1,
     { e.2 with
       outgoingLinks :=
         e.2.outgoingLinks.filter (fun link => ¬listHas noise link.href) })

/-- Sum of the outgoing-link counts across all pages. -/
def totalLinks (pages : Pages) : Nat :=
  pages.foldl (fun sum e => sum + e.2.outgoingLinks.length) 0

/-- The per-href noise-category tags recorded for diagnostics. -/
def noiseCategoriesOf (pages : Pages) : List (String × List String) :=
  let withGlobal := (identifyGlobalNavigation pages).foldl
    (fun nc e =>
      let cur := (mapGet? nc e.1).getD []
      mapSet nc e.1 (cur ++ ["global_navigation"]))
    []
  let withStructural := (identifyStructuralNoise pages).foldl
    (fun nc link =>
      let cur := (mapGet? nc link).getD []
      mapSet nc link (cur ++ ["structural"]))
    withGlobal
  (identifyLowValueLinks pages).foldl
    (fun nc link =>
      let cur := (mapGet? nc link).getD []
      mapSet nc link (cur ++ ["low_value"]))
    withStructural

/-- `reduceNoise` (src NoiseReducer): combine the heuristics, clean the
pages, and fall back to low-value-only filtering when the aggressive pass
removed more than 90% of all links. -/
def reduceNoise (pages : Pages) : NoiseReductionResult :=
  let globalNav := identifyGlobalNavigation pages
  let hubPages := identifyHubPages pages
  let lowValueLinks := identifyLowValueLinks pages
  let allNoiseLinks := allNoiseLinksOf pages
  let noiseCategories := noiseCategoriesOf pages
  let cleanedPages := cleanPages pages allNoiseLinks
  let totalLinksBefore := totalLinks pages
  let totalLinksAfter := totalLinks cleanedPages
  if 10 * totalLinksAfter < totalLinksBefore then
    { cleanedPages := cleanPages pages lowValueLinks
      noiseLinks := lowValueLinks
      noiseCategories := noiseCategories
      globalNavigation := globalNav
      hubPages := hubPages }
  else
    { cleanedPages := cleanedPages
      noiseLinks := allNoiseLinks
      noiseCategories := noiseCategories
      globalNavigation := globalNav
      hubPages := hubPages }

end NoiseReducer

/-! ## FlowAnalyzer -/

namespace FlowAnalyzer

/-- `MAX_NODES_IN_FLOW` (src FlowAnalyzer). -/
def MAX_NODES_IN_FLOW : Nat := 30

/-- `calculatePageImportance` (src FlowAnalyzer): sequential accumulation of
the scoring factors, exactly in source order; the global-navigation
multiplication by `0.7` happens before the flat `+10` base. -/
def calculatePageImportance (url : String) (page : PageMetadata)
    (allPages : Pages) (incomingLinks : List (String × Nat))
    (noiseResult : NoiseReductionResult) : Frac :=
  let score : Frac := 0
  let incoming := (mapGet? incomingLinks url).getD 0
  let score :=
    if ¬listHas noiseResult.hubPages url = true then
      score + Frac.ofNat incoming * 15
    else score + 40
  let score := score + Frac.ofNat (6 - min page.depth 6) * 10
  let score :=
    match mapGet? noiseResult.cleanedPages url with
    | some cleanedPage =>
      if 0 < cleanedPage.outgoingLinks.length then
        score + Frac.ofNat (min cleanedPage.outgoingLinks.length 15) * 4
      else score
    | none => score
  let urlLower := lowerStr url
  let score :=
    if (strEndsWith urlLower "/home" || strEndsWith urlLower "/index" ||
        strEndsWith urlLower "/dashboard" || strEndsWith urlLower "/main") =
        true then
      score + 100
    else score
  let score :=
    if (strContains urlLower "/login" || strContains urlLower "/signup" ||
        strContains urlLower "/register" || strContains urlLower "/auth") =
        true then
      score + 80
    else score
  let score :=
    if (strContains urlLower "/checkout" || strContains urlLower "/cart" ||
        strContains urlLower "/payment" || strContains urlLower "/order") =
        true then
      score + 80
    else score
  let score :=
    if (strContains urlLower "/product" || strContains urlLower "/item" ||
        strContains urlLower "/detail") = true then
      score + 60
    else score
  let score :=
    if (strContains urlLower "/contact" || strContains urlLower "/support" ||
        strContains urlLower "/help") = true then
      score + 50
    else score
  let score :=
    if (strContains urlLower "/profile" || strContains urlLower "/account" ||
        strContains urlLower "/settings") = true then
      score + 60
    else score
  let score :=
    if (strContains urlLower "/search" || strContains urlLower "/results") =
        true then
      score + 50
    else score
  let score :=
    if (strContains urlLower "/category" ||
        strContains urlLower "/collection" || strContains urlLower "/browse") =
        true then
      score + 45
    else score
  let score :=
    if (strContains urlLower "/about" || strContains urlLower "/info") =
        true then
      score + 35
    else score
  let titleLower := lowerStr page.title
  let score :=
    if (strContains titleLower "home" || strContains titleLower "dashboard" ||
        strContains titleLower "main" || strContains titleLower "overview") =
        true then
      score + 40
    else score
  let score :=
    if (strContains titleLower "login" || strContains titleLower "sign in" ||
        strContains titleLower "register" || strContains titleLower "sign up") =
        true then
      score + 40
    else score
  let score :=
    if (strContains titleLower "checkout" || strContains titleLower "cart" ||
        strContains titleLower "payment") = true then
      score + 40
    else score
  let score :=
    if (strContains titleLower "product" || strContains titleLower "item" ||
        strContains titleLower "detail") = true then
      score + 30
    else score
  let score :=
    if (strContains titleLower "category" ||
        strContains titleLower "collection") = true then
      score + 25
    else score
  let score :=
    if (mapGet? noiseResult.globalNavigation url).isSome = true then
      score * Frac.frac 7 10
    else score
  score + 10

/-- `buildIncomingLinksMap` (src FlowAnalyzer): count, over the cleaned
pages, every outgoing-link occurrence whose href is not global navigation. -/
def buildIncomingLinksMap (pages : Pages)
    (noiseResult : NoiseReductionResult) : List (String × Nat) :=
  noiseResult.cleanedPages.foldl
    (fun incomingLinks e =>
      e.2.outgoingLinks.foldl
        (fun m link =>
          if ¬(mapGet? noiseResult.globalNavigation link.href).isSome = true
          then mapSet m link.href ((mapGet? m link.href).getD 0 + 1)
          else m)
        incomingLinks)
    []

/-- Stable insertion for the descending score sort: an element goes before
the first element whose score it is `≥` to, so ties keep original order
(`Array.prototype.sort` with comparator `(a, b) => b[1] - a[1]` is stable). -/
def insertDescByScore (x : String × Frac) :
    List (String × Frac) → List (String × Frac)
  | [] => [x]
  | y :: ys => if x.2 ≥ y.2 then x :: y :: ys else y :: insertDescByScore x ys

/-- Stable sort of `(url, score)` pairs by descending score. -/
def sortByScoreDesc : List (String × Frac) → List (String × Frac)
  | [] => []
  | x :: xs => insertDescByScore x (sortByScoreDesc xs)

/-- The `(url, score)` list of `identifyKeyPages` in page-map order. -/
def pageScoresOf (pages : Pages) (noiseResult : NoiseReductionResult)
    (incomingLinks : List (String × Nat)) : List (String × Frac) :=
  pages.map fun e =>
    (e.1, calculatePageImportance e.1 e.2 pages incomingLinks noiseResult)

/-- The score-sorted page list of `identifyKeyPages`. -/
def sortedPagesOf (pages : Pages) (noiseResult : NoiseReductionResult)
    (incomingLinks : List (String × Nat)) : List (String × Frac) :=
  sortByScoreDesc (pageScoresOf pages noiseResult incomingLinks)

/-- `targetNodeCount`:
`Math.max(10, Math.min(30, Math.ceil(size * 0.3)))`; `⌈3n/10⌉ = (3n+9)/10`
coincides with the double-precision `Math.ceil(n * 0.3)` for every count. -/
def targetNodeCount (totalPages : Nat) : Nat :=
  max 10 (min MAX_NODES_IN_FLOW ((3 * totalPages + 9) / 10))

/-- The key-page set of `identifyKeyPages` as built before the safety check:
top-`targetNodeCount` scored pages, plus the crawl start page (the first key
of the ordered page map) when that key is a truthy (non-empty) string. -/
def keyPagesBase (pages : Pages) (noiseResult : NoiseReductionResult)
    (incomingLinks : List (String × Nat)) : List String :=
  let topPages :=
    (sortedPagesOf pages noiseResult incomingLinks).take
      (targetNodeCount pages.length)
  let keyPages := topPages.foldl (fun s e => setAdd s e.1) []
  match pages.head? with
  | some e => if e.1 ≠ "" then setAdd keyPages e.1 else keyPages
  | none => keyPages

/-- `identifyKeyPages` (src FlowAnalyzer): the base selection, widened to the
top `min(15, totalPages)` scored pages when fewer than 5 pages were selected
although at least 5 exist. -/
def identifyKeyPages (pages : Pages) (noiseResult : NoiseReductionResult)
    (incomingLinks : List (String × Nat)) : List String :=
  let keyPages := keyPagesBase pages noiseResult incomingLinks
  if keyPages.length < 5 ∧ 5 ≤ pages.length then
    ((sortedPagesOf pages noiseResult incomingLinks).take
      (min 15 pages.length)).foldl (fun s e => setAdd s e.1) keyPages
  else keyPages

/-- `inferNodeType` (src FlowAnalyzer): first-match-wins over the ordered
rule table entry → form → transaction → exit → content. -/
def inferNodeType (url pageTitle : String) : NodeType :=
  let urlLower := lowerStr url
  if (strEndsWith urlLower "/" || strContains urlLower "/home" ||
      strContains urlLower "/index" || strContains urlLower "/dashboard") =
      true then
    NodeType.entry
  else if (strContains urlLower "/login" || strContains urlLower "/signup" ||
      strContains urlLower "/register" || strContains urlLower "/contact") =
      true then
    NodeType.form
  else if (strContains urlLower "/checkout" ||
      strContains urlLower "/payment" || strContains urlLower "/cart" ||
      strContains urlLower "/order") = true then
    NodeType.transaction
  else if (strContains urlLower "/thank" || strContains urlLower "/success" ||
      strContains urlLower "/confirm" || strContains urlLower "/complete") =
      true then
    NodeType.exit
  else NodeType.content

/-- Capitalize the first character of a word
(`word.charAt(0).toUpperCase() + word.slice(1)`). -/
def capitalizeWord (w : List Char) : List Char :=
  match w with
  | [] => []
  | c :: rest => Char.toUpper c :: rest

/-- Join character-sequence words with a separator (`Array.join`). -/
def joinChar (sep : Char) : List (List Char) → List Char
  | [] => []
  | [w] => w
  | w :: x :: rest => w ++ sep :: joinChar sep (x :: rest)

/-- `generateNodeLabel` (src FlowAnalyzer): the page title when non-empty and
shorter than 50 characters, else the capitalized last path segment, else
`"Home"`. -/
def generateNodeLabel (url pageTitle : String) : String :=
  if pageTitle ≠ "" ∧ 0 < pageTitle.length ∧ pageTitle.length < 50 then
    pageTitle
  else
    let segments := UrlUtils.getPathSegments url
    if segments.length = 0 then "Home"
    else
      let lastSegment := (segments.getLast?.getD "").data
      ⟨joinChar ' ' ((splitAll '-' lastSegment).map capitalizeWord)⟩

/-- `buildNodes` (src FlowAnalyzer): one node per key page that exists in the
page map, keyed by its URL. -/
def buildNodes (pages : Pages) (keyPages : List String) :
    List (String × FlowNode) :=
  keyPages.foldl
    (fun nodes url =>
      match mapGet? pages url with
      | none => nodes
      | some page =>
        mapSet nodes url
          { id := url
            label := generateNodeLabel url page.title
            url := url
            type := inferNodeType url page.title
            metadata :=
              { depth := page.depth
                pageTitle := page.title
                pathSegments := UrlUtils.getPathSegments url } })
    []

/-- The aggregated per-edge data of `buildEdges`. -/
structure EdgeData : Type where
  count : Nat
  label : String
deriving DecidableEq, Repr

/-- One qualifying link occurrence inside `buildEdges`: create the entry with
count 0 and the first-seen text when absent, then increment and relabel when
the new text is non-empty and strictly shorter than the current label. -/
def edgeStep (edgeMap : List (String × EdgeData)) (edgeKey txt : String) :
    List (String × EdgeData) :=
  let edgeMap :=
    if (mapGet? edgeMap edgeKey).isSome then edgeMap
    else mapSet edgeMap edgeKey { count := 0, label := txt }
  match mapGet? edgeMap edgeKey with
  | some edge =>
    let edge := { edge with count := edge.count + 1 }
    let edge :=
      if txt ≠ "" ∧ txt.length < edge.label.length then
        { edge with label := txt }
      else edge
    mapSet edgeMap edgeKey edge
  | none => edgeMap

/-- The keyed edge map of `buildEdges` before conversion to an edge array. -/
def edgeMapOf (keyPages : List String) (cleanedPages : Pages) :
    List (String × EdgeData) :=
  cleanedPages.foldl
    (fun m e =>
      if ¬listHas keyPages e.1 = true then m
      else
        e.2.outgoingLinks.foldl
          (fun m link =>
            if ¬listHas keyPages link.href = true then m
            else edgeStep m (e.1 ++ "::" ++ link.href) link.text)
          m)
    []

/-- `buildEdges` (src FlowAnalyzer): aggregate qualifying link occurrences
between key pages under the key `source + "::" + target`, then split each key
back apart with `key.split("::")`. -/
def buildEdges (pages : Pages) (keyPages : List String)
    (noiseResult : NoiseReductionResult) : List FlowEdge :=
  (edgeMapOf keyPages noiseResult.cleanedPages).map fun e =>
    let parts := splitDoubleColon e.1.data
    { source := ⟨parts.getD 0 []⟩
      target := ⟨parts.getD 1 []⟩
      weight := e.2.count
      label := e.2.label }

/-- `analyze` (src FlowAnalyzer): the full pipeline.  `crawlTimestamp` is
`Date.now()` in the source — a wall-clock value irrelevant to every claim —
and is modelled as 0. -/
def analyze (pages : Pages) (startUrl : String) : UserFlow :=
  let noiseResult := NoiseReducer.reduceNoise pages
  let incomingLinks := buildIncomingLinksMap pages noiseResult
  let keyPages := identifyKeyPages pages noiseResult incomingLinks
  let nodes := buildNodes pages keyPages
  let edges := buildEdges pages keyPages noiseResult
  { nodes := nodes.map Prod.snd
    edges := edges
    metadata :=
      { startUrl := startUrl
        totalPages := pages.length
        noiseFiltered := noiseResult.noiseLinks.length
        crawlTimestamp := 0 } }

end FlowAnalyzer

/-! ## Spec-side characterizations of the importance score -/

namespace FlowAnalyzer

/-- The popularity factor of the score table (hub bonus or incoming-link
weight). -/
def popularityFactor (url : String) (incomingLinks : List (String × Nat))
    (noiseResult : NoiseReductionResult) : Frac :=
  if ¬listHas noiseResult.hubPages url = true then
    Frac.ofNat ((mapGet? incomingLinks url).getD 0) * 15
  else 40

/-- The depth factor of the score table. -/
def depthFactor (page : PageMetadata) : Frac :=
  Frac.ofNat (6 - min page.depth 6) * 10

/-- The outgoing-richness factor of the score table. -/
def outgoingRichnessFactor (url : String)
    (noiseResult : NoiseReductionResult) : Frac :=
  match mapGet? noiseResult.cleanedPages url with
  | some cleanedPage =>
    if 0 < cleanedPage.outgoingLinks.length then
      Frac.ofNat (min cleanedPage.outgoingLinks.length 15) * 4
    else 0
  | none => 0

/-- The URL-pattern bonus of the score table (all matches contribute). -/
def urlPatternFactor (url : String) : Frac :=
  let urlLower := lowerStr url
  (if (strEndsWith urlLower "/home" || strEndsWith urlLower "/index" ||
       strEndsWith urlLower "/dashboard" || strEndsWith urlLower "/main") =
       true then (100 : Frac) else 0) +
  (if (strContains urlLower "/login" || strContains urlLower "/signup" ||
       strContains urlLower "/register" || strContains urlLower "/auth") =
       true then (80 : Frac) else 0) +
  (if (strContains urlLower "/checkout" || strContains urlLower "/cart" ||
       strContains urlLower "/payment" || strContains urlLower "/order") =
       true then (80 : Frac) else 0) +
  (if (strContains urlLower "/product" || strContains urlLower "/item" ||
       strContains urlLower "/detail") = true then (60 : Frac) else 0) +
  (if (strContains urlLower "/contact" || strContains urlLower "/support" ||
       strContains urlLower "/help") = true then (50 : Frac) else 0) +
  (if (strContains urlLower "/profile" || strContains urlLower "/account" ||
       strContains urlLower "/settings") = true then (60 : Frac) else 0) +
  (if (strContains urlLower "/search" || strContains urlLower "/results") =
       true then (50 : Frac) else 0) +
  (if (strContains urlLower "/category" ||
       strContains urlLower "/collection" ||
       strContains urlLower "/browse") = true then (45 : Frac) else 0) +
  (if (strContains urlLower "/about" || strContains urlLower "/info") =
       true then (35 : Frac) else 0)

/-- The title-keyword bonus of the score table (all matches contribute). -/
def titleKeywordFactor (title : String) : Frac :=
  let titleLower := lowerStr title
  (if (strContains titleLower "home" || strContains titleLower "dashboard" ||
       strContains titleLower "main" || strContains titleLower "overview") =
       true then (40 : Frac) else 0) +
  (if (strContains titleLower "login" || strContains titleLower "sign in" ||
       strContains titleLower "register" ||
       strContains titleLower "sign up") = true then (40 : Frac) else 0) +
  (if (strContains titleLower "checkout" || strContains titleLower "cart" ||
       strContains titleLower "payment") = true then (40 : Frac) else 0) +
  (if (strContains titleLower "product" || strContains titleLower "item" ||
       strContains titleLower "detail") = true then (30 : Frac) else 0) +
  (if (strContains titleLower "category" ||
       strContains titleLower "collection") = true then (25 : Frac) else 0)

/-- The sum of the five additive scoring factors, base excluded. -/
def additiveFactors (url : String) (page : PageMetadata)
    (incomingLinks : List (String × Nat))
    (noiseResult : NoiseReductionResult) : Frac :=
  popularityFactor url incomingLinks noiseResult + depthFactor page +
    outgoingRichnessFactor url noiseResult + urlPatternFactor url +
    titleKeywordFactor page.title

end FlowAnalyzer

/-- Pushing `toRat` through an `if`. -/
theorem toRat_ite (c : Prop) [Decidable c] (a b : Frac) :
    (if c then a else b).toRat = if c then a.toRat else b.toRat :=
  apply_ite Frac.toRat c a b

/-- The denominator of an `if`. -/
theorem den_ite (c : Prop) [Decidable c] (a b : Frac) :
    (if c then a else b).den = if c then a.den else b.den :=
  apply_ite Frac.den c a b

/-- The value of the `0.7` penalty constant. -/
theorem toRat_seven_tenths : (Frac.frac 7 10).toRat = 7 / 10 := by
  norm_num [Frac.toRat, Frac.frac, Frac.den]

/-- `(if c then s + a else s + b) = s + (if c then a else b)` in `ℚ`. -/
theorem ite_add_pair (c : Prop) [Decidable c] (s a b : ℚ) :
    (if c then s + a else s + b) = s + if c then a else b := by
  split <;> rfl

/-- `(if c then s + a else s) = s + (if c then a else 0)` in `ℚ`. -/
theorem ite_add_zero (c : Prop) [Decidable c] (s a : ℚ) :
    (if c then s + a else s) = s + if c then a else 0 := by
  split <;> simp

/-- C1: the global-navigation penalty multiplies only the five additive
factors; the flat `+10` base is added after the multiplication, so for a
global-navigation page `score = additiveFactors * 0.7 + 10`, not
`(additiveFactors + 10) * 0.7`. -/
theorem claim_C1 (url : String) (page : PageMetadata) (allPages : Pages)
    (incomingLinks : List (String × Nat))
    (noiseResult : NoiseReductionResult) :
    (FlowAnalyzer.calculatePageImportance url page allPages incomingLinks
        noiseResult).toRat =
      (if (mapGet? noiseResult.globalNavigation url).isSome = true then
        (FlowAnalyzer.additiveFactors url page incomingLinks
            noiseResult).toRat * (7 / 10 : ℚ)
      else
        (FlowAnalyzer.additiveFactors url page incomingLinks
            noiseResult).toRat) + 10 := by
  simp only [FlowAnalyzer.calculatePageImportance,
    FlowAnalyzer.additiveFactors, FlowAnalyzer.popularityFactor,
    FlowAnalyzer.depthFactor, FlowAnalyzer.outgoingRichnessFactor,
    FlowAnalyzer.urlPatternFactor, FlowAnalyzer.titleKeywordFactor]
  cases h : mapGet? noiseResult.cleanedPages url with
  | none =>
    simp only [h, Frac.toRat_add, Frac.toRat_mul, toRat_ite,
      toRat_seven_tenths, Frac.toRat_ofNat, Frac.toRat_instOfNat,
      Nat.cast_ofNat, Nat.cast_zero, Nat.cast_one,
      ite_add_pair, ite_add_zero]
    by_cases hg : (mapGet? noiseResult.globalNavigation url).isSome = true
    · rw [if_pos hg, if_pos hg]; ring
    · rw [if_neg hg, if_neg hg]; ring
  | some cleanedPage =>
    simp only [h, Frac.toRat_add, Frac.toRat_mul, toRat_ite,
      toRat_seven_tenths, Frac.toRat_ofNat, Frac.toRat_instOfNat,
      Nat.cast_ofNat, Nat.cast_zero, Nat.cast_one,
      ite_add_pair, ite_add_zero]
    by_cases hg : (mapGet? noiseResult.globalNavigation url).isSome = true
    · rw [if_pos hg, if_pos hg]; ring
    · rw [if_neg hg, if_neg hg]; ring

/-- The single self-linking page used to exhibit the C1 penalty order. -/
def c1Page : PageMetadata :=
  { url := "a", title := "", depth := 0
    outgoingLinks :=
      [{ href := "a", text := "x", position := LinkPosition.content
         context := "" }] }

/-- Its one-page map: the self href is global navigation and a hub page. -/
def c1Pages : Pages := [("a", c1Page)]

/-- C1 counterexample: a concrete global-navigation page whose score is not
`(sum of all additive factors, base included) * 0.7` — the code computes
`additiveFactors * 0.7 + 10 = 82.8`, the claim demands
`(additiveFactors + 10) * 0.7 = 79.8`. -/
theorem claim_C1_counterexample :
    (mapGet? (NoiseReducer.reduceNoise c1Pages).globalNavigation "a").isSome =
        true ∧
      (FlowAnalyzer.calculatePageImportance "a" c1Page c1Pages
          (FlowAnalyzer.buildIncomingLinksMap c1Pages
            (NoiseReducer.reduceNoise c1Pages))
          (NoiseReducer.reduceNoise c1Pages)).toRat ≠
        ((FlowAnalyzer.additiveFactors "a" c1Page
            (FlowAnalyzer.buildIncomingLinksMap c1Pages
              (NoiseReducer.reduceNoise c1Pages))
            (NoiseReducer.reduceNoise c1Pages)).toRat + 10) * (7 / 10 : ℚ) := by
  refine ⟨by decide, ?_⟩
  rw [show FlowAnalyzer.calculatePageImportance "a" c1Page c1Pages
      (FlowAnalyzer.buildIncomingLinksMap c1Pages
        (NoiseReducer.reduceNoise c1Pages))
      (NoiseReducer.reduceNoise c1Pages) = Frac.frac 828 10 from rfl,
    show FlowAnalyzer.additiveFactors "a" c1Page
      (FlowAnalyzer.buildIncomingLinksMap c1Pages
        (NoiseReducer.reduceNoise c1Pages))
      (NoiseReducer.reduceNoise c1Pages) = Frac.frac 104 1 from rfl]
  norm_num [Frac.toRat, Frac.frac, Frac.den]

/-! ## C2: structural noise -/

theorem mem_linksFold (links : List Link) (init : List String) (x : String) :
    (x ∈ links.foldl (fun s link => setAdd s link.href) init) ↔
      x ∈ init ∨ ∃ l ∈ links, l.href = x := by
  induction links generalizing init with
  | nil => simp
  | cons l ls ih =>
    simp only [List.foldl_cons, ih, mem_setAdd, List.mem_cons]
    constructor
    · rintro ((hx | hx) | ⟨l', hl', hx⟩)
      · exact Or.inl hx
      · exact Or.inr ⟨l, Or.inl rfl, hx.symm⟩
      · exact Or.inr ⟨l', Or.inr hl', hx⟩
    · rintro (hx | ⟨l', hl' | hl', hx⟩)
      · exact Or.inl (Or.inl hx)
      · subst hl'
        exact Or.inl (Or.inr hx.symm)
      · exact Or.inr ⟨l', hl', hx⟩

theorem mem_structFold (pages : Pages) (init : List String) (x : String) :
    (x ∈ pages.foldl
        (fun structuralLinks e =>
          (e.2.outgoingLinks.filter
            (fun link => listHas [LinkPosition.footer] link.position)).foldl
            (fun s link => setAdd s link.href) structuralLinks)
        init) ↔
      x ∈ init ∨ ∃ e ∈ pages, ∃ l ∈ e.2.outgoingLinks,
        l.position = LinkPosition.footer ∧ l.href = x := by
  induction pages generalizing init with
  | nil => simp
  | cons e rest ih =>
    simp only [List.foldl_cons, ih, mem_linksFold, List.mem_filter,
      List.mem_cons]
    have hpos : ∀ l : Link,
        listHas [LinkPosition.footer] l.position = true ↔
          l.position = LinkPosition.footer := by
      intro l
      constructor
      · intro h
        by_cases hl : LinkPosition.footer = l.position
        · exact hl.symm
        · simp [listHas, hl] at h
      · intro h
        simp [listHas, h]
    constructor
    · rintro ((hx | ⟨l, ⟨hl, hf⟩, hx⟩) | ⟨e', he', l, hl, hf, hx⟩)
      · exact Or.inl hx
      · exact Or.inr ⟨e, Or.inl rfl, l, hl, (hpos l).mp hf, hx⟩
      · exact Or.inr ⟨e', Or.inr he', l, hl, hf, hx⟩
    · rintro (hx | ⟨e', he' | he', l, hl, hf, hx⟩)
      · exact Or.inl (Or.inl hx)
      · subst he'
        exact Or.inl (Or.inr ⟨l, ⟨hl, (hpos l).mpr hf⟩, hx⟩)
      · exact Or.inr ⟨e', he', l, hl, hf, hx⟩

theorem mem_identifyStructuralNoise (pages : Pages) (x : String) :
    (x ∈ NoiseReducer.identifyStructuralNoise pages) ↔
      ∃ e ∈ pages, ∃ l ∈ e.2.outgoingLinks,
        l.position = LinkPosition.footer ∧ l.href = x := by
  unfold NoiseReducer.identifyStructuralNoise
  rw [mem_structFold]
  simp

/-- C2 (amended): the structural-noise set contains exactly the hrefs with at
least one recorded occurrence in FOOTER position, regardless of occurrences
in other positions. -/
theorem claim_C2 (pages : Pages) (href : String) :
    listHas (NoiseReducer.identifyStructuralNoise pages) href = true ↔
      ∃ e ∈ pages, ∃ l ∈ e.2.outgoingLinks,
        l.position = LinkPosition.footer ∧ l.href = href := by
  rw [listHas_iff_mem, mem_identifyStructuralNoise]

/-- A single page whose href `"x"` occurs once in FOOTER and once in CONTENT
position. -/
def c2Pages : Pages :=
  [("p",
    { url := "p", title := "", depth := 0
      outgoingLinks :=
        [{ href := "x", text := "t", position := LinkPosition.footer
           context := "" },
         { href := "x", text := "t", position := LinkPosition.content
           context := "" }] })]

/-- C2 counterexample: `"x"` has a non-FOOTER occurrence yet is classified as
structural noise, so the set is not "hrefs whose every occurrence is in
FOOTER". -/
theorem claim_C2_counterexample :
    listHas (NoiseReducer.identifyStructuralNoise c2Pages) "x" = true ∧
      ¬(∀ e ∈ c2Pages, ∀ l ∈ e.2.outgoingLinks,
          l.href = "x" → l.position = LinkPosition.footer) := by
  decide

/-- C2 witness: the amended characterization evaluated at the concrete map. -/
theorem claim_C2_witness :
    listHas (NoiseReducer.identifyStructuralNoise c2Pages) "x" = true :=
  (claim_C2 c2Pages "x").mpr (by decide)

/-! ## C5: incoming-link counts -/

/-- The total number of link occurrences with the given href across the
cleaned pages (duplicates on one page and self-links all counted). -/
def occurrenceCount (cleanedPages : Pages) (url : String) : Nat :=
  (cleanedPages.map
    (fun e => (e.2.outgoingLinks.filter (fun l => l.href = url)).length)).sum

/-- The number of distinct pages other than `url` whose cleaned outgoing
links include `url` — the quantity the spec claims is counted. -/
def distinctSourceCount (cleanedPages : Pages) (url : String) : Nat :=
  (cleanedPages.filter
    (fun e => e.1 ≠ url ∧ e.2.outgoingLinks.any (fun l => l.href = url))).length

theorem incomingFold_links (gn : List (String × NavigationInfo))
    (links : List Link) (m : List (String × Nat)) (url : String) :
    (mapGet?
        (links.foldl
          (fun m link =>
            if ¬(mapGet? gn link.href).isSome = true then
              mapSet m link.href ((mapGet? m link.href).getD 0 + 1)
            else m)
          m)
        url).getD 0 =
      (mapGet? m url).getD 0 +
        if (mapGet? gn url).isSome = true then 0
        else (links.filter (fun l => l.href = url)).length := by
  induction links generalizing m with
  | nil => split <;> simp
  | cons l ls ih =>
    simp only [List.foldl_cons]
    rw [ih]
    by_cases hl : l.href = url
    · rw [hl]
      by_cases hg : (mapGet? gn url).isSome = true
      · rw [if_neg (by simp [hg]), if_pos hg, if_pos hg]
      · rw [if_pos (by simp [hg]), if_neg hg, if_neg hg]
        rw [mapGet?_mapSet]
        simp only [if_true, eq_self_iff_true, Option.getD_some]
        have : (List.filter (fun l => decide (l.href = url)) (l :: ls)).length
            = (List.filter (fun l => decide (l.href = url)) ls).length + 1 := by
          simp [List.filter_cons, hl]
        omega
    · have hstep :
          (mapGet?
            (if ¬(mapGet? gn l.href).isSome = true then
              mapSet m l.href ((mapGet? m l.href).getD 0 + 1)
            else m) url).getD 0 = (mapGet? m url).getD 0 := by
        split
        · rw [mapGet?_mapSet, if_neg hl]
        · rfl
      rw [hstep]
      have : (List.filter (fun l => decide (l.href = url)) (l :: ls)).length
          = (List.filter (fun l => decide (l.href = url)) ls).length := by
        simp [List.filter_cons, hl]
      rw [this]

theorem incomingFold_pages (gn : List (String × NavigationInfo))
    (pagesList : Pages) (m : List (String × Nat)) (url : String) :
    (mapGet?
        (pagesList.foldl
          (fun incomingLinks e =>
            e.2.outgoingLinks.foldl
              (fun m link =>
                if ¬(mapGet? gn link.href).isSome = true then
                  mapSet m link.href ((mapGet? m link.href).getD 0 + 1)
                else m)
              incomingLinks)
          m)
        url).getD 0 =
      (mapGet? m url).getD 0 +
        if (mapGet? gn url).isSome = true then 0
        else occurrenceCount pagesList url := by
  induction pagesList generalizing m with
  | nil => split <;> simp [occurrenceCount]
  | cons e rest ih =>
    simp only [List.foldl_cons]
    rw [ih, incomingFold_links]
    by_cases hg : (mapGet? gn url).isSome = true
    · rw [if_pos hg, if_pos hg, if_pos hg]
    · rw [if_neg hg, if_neg hg, if_neg hg]
      simp only [occurrenceCount, List.map_cons, List.sum_cons]
      omega

/-- C5 (amended): `incomingLinkCounts[url]` is the total number of cleaned
outgoing-link occurrences with href `url` across all pages — duplicates from
one source page and self-links included — and 0 when `url` is global
navigation. -/
theorem claim_C5 (pages : Pages) (noiseResult : NoiseReductionResult)
    (url : String) :
    (mapGet? (FlowAnalyzer.buildIncomingLinksMap pages noiseResult)
        url).getD 0 =
      if (mapGet? noiseResult.globalNavigation url).isSome = true then 0
      else occurrenceCount noiseResult.cleanedPages url := by
  unfold FlowAnalyzer.buildIncomingLinksMap
  rw [incomingFold_pages]
  simp [mapGet?]

/-- Two pages: `"a"` links twice to `"b"`, `"c"` has no links, nothing is
noise. -/
def c5Pages : Pages :=
  [("a",
    { url := "a", title := "", depth := 0
      outgoingLinks :=
        [{ href := "b", text := "t1", position := LinkPosition.content
           context := "" },
         { href := "b", text := "t2", position := LinkPosition.content
           context := "" }] }),
   ("c", { url := "c", title := "", depth := 0, outgoingLinks := [] })]

/-- C5 counterexample: the computed count for `"b"` is 2 (both occurrences
from the single page `"a"`), while the number of distinct other pages linking
to `"b"` is 1 — duplicate links from the same source do increase the count. -/
theorem claim_C5_counterexample :
    (mapGet?
        (FlowAnalyzer.buildIncomingLinksMap c5Pages
          (NoiseReducer.reduceNoise c5Pages))
        "b").getD 0 = 2 ∧
      mapGet? (NoiseReducer.reduceNoise c5Pages).globalNavigation "b" =
        none ∧
      distinctSourceCount (NoiseReducer.reduceNoise c5Pages).cleanedPages
        "b" = 1 := by
  decide

/-! ## C3: the noise-reduction safety fallback -/

/-- C3: the fallback triggers exactly when the aggressive pass leaves fewer
than 10% of the links (`totalLinksAfter < 0.10 * totalLinksBefore`, compared
here as `10 * after < before`); when it triggers, `noiseLinks` is exactly the
low-value set and `cleanedPages` is recomputed with only that set, while
`globalNavigation` and `hubPages` are still the originally computed ones;
when it does not trigger, the aggressive result is returned. -/
theorem claim_C3 (pages : Pages) :
    (10 * NoiseReducer.totalLinks
          (NoiseReducer.cleanPages pages (NoiseReducer.allNoiseLinksOf pages))
        < NoiseReducer.totalLinks pages →
      (NoiseReducer.reduceNoise pages).noiseLinks =
          NoiseReducer.identifyLowValueLinks pages ∧
        (NoiseReducer.reduceNoise pages).cleanedPages =
          NoiseReducer.cleanPages pages
            (NoiseReducer.identifyLowValueLinks pages) ∧
        (NoiseReducer.reduceNoise pages).globalNavigation =
          NoiseReducer.identifyGlobalNavigation pages ∧
        (NoiseReducer.reduceNoise pages).hubPages =
          NoiseReducer.identifyHubPages pages) ∧
      (¬(10 * NoiseReducer.totalLinks
            (NoiseReducer.cleanPages pages
              (NoiseReducer.allNoiseLinksOf pages))
          < NoiseReducer.totalLinks pages) →
        (NoiseReducer.reduceNoise pages).noiseLinks =
            NoiseReducer.allNoiseLinksOf pages ∧
          (NoiseReducer.reduceNoise pages).cleanedPages =
            NoiseReducer.cleanPages pages
              (NoiseReducer.allNoiseLinksOf pages) ∧
          (NoiseReducer.reduceNoise pages).globalNavigation =
            NoiseReducer.identifyGlobalNavigation pages ∧
          (NoiseReducer.reduceNoise pages).hubPages =
            NoiseReducer.identifyHubPages pages) := by
  constructor <;> intro h <;>
    simp [NoiseReducer.reduceNoise, h]

/-- The spec's fallback scenario in miniature: every page carries the same
one-link menu, so aggressive cleaning removes 100% of links. -/
def c3Pages : Pages :=
  [("p1",
    { url := "p1", title := "", depth := 0
      outgoingLinks :=
        [{ href := "n", text := "m", position := LinkPosition.content
           context := "" }] }),
   ("p2",
    { url := "p2", title := "", depth := 1
      outgoingLinks :=
        [{ href := "n", text := "m", position := LinkPosition.content
           context := "" }] })]

/-- C3 witness: on the all-links-removed scenario the fallback fires and the
returned noise set is exactly the (here empty) low-value set. -/
theorem claim_C3_witness :
    (NoiseReducer.reduceNoise c3Pages).noiseLinks =
      NoiseReducer.identifyLowValueLinks c3Pages :=
  ((claim_C3 c3Pages).1 (by decide)).1

/-! ## C9: the start page in the key-page set -/

theorem mem_foldl_setAdd_pairs_init (l : List (String × Frac))
    (init : List String) (x : String) (hx : x ∈ init) :
    x ∈ l.foldl (fun s e => setAdd s e.1) init := by
  induction l generalizing init with
  | nil => exact hx
  | cons p ps ih =>
    exact ih _ (mem_setAdd_of_mem _ _ _ hx)

theorem startPage_mem_keyPagesBase (pages : Pages)
    (noiseResult : NoiseReductionResult)
    (incomingLinks : List (String × Nat)) (e : String × PageMetadata)
    (h : pages.head? = some e) (hne : e.1 ≠ "") :
    e.1 ∈ FlowAnalyzer.keyPagesBase pages noiseResult incomingLinks := by
  unfold FlowAnalyzer.keyPagesBase
  rw [h]
  simp only [if_pos hne]
  exact mem_setAdd_self _ _

/-- C9 (amended): the first-inserted page of a non-empty page map is always a
member of the key-page set, provided its URL is a non-empty string (the
source guards the insertion with JavaScript truthiness, so an empty-string
start URL is skipped). -/
theorem claim_C9 (pages : Pages) (noiseResult : NoiseReductionResult)
    (incomingLinks : List (String × Nat)) (e : String × PageMetadata)
    (h : pages.head? = some e) (hne : e.1 ≠ "") :
    e.1 ∈ FlowAnalyzer.identifyKeyPages pages noiseResult incomingLinks := by
  simp only [FlowAnalyzer.identifyKeyPages]
  split
  · exact mem_foldl_setAdd_pairs_init _ _ _
      (startPage_mem_keyPagesBase pages noiseResult incomingLinks e h hne)
  · exact startPage_mem_keyPagesBase pages noiseResult incomingLinks e h hne

/-- Eleven pages whose first-inserted key is the empty string and scores
lowest (depth 6 versus depth 0 for the other ten). -/
def c9Pages : Pages :=
  ("", { url := "", title := "", depth := 6, outgoingLinks := [] }) ::
    (List.range 10).map fun i =>
      ("p" ++ toString i,
       { url := "p" ++ toString i, title := "", depth := 0
         outgoingLinks := [] })

/-- C9 counterexample: with an empty-string first key that falls outside the
top-10, the start page is *not* in the key-page set — the truthiness guard
`if (startPage)` skips it. -/
theorem claim_C9_counterexample :
    (c9Pages.head?.map Prod.fst = some "") ∧
      listHas
        (FlowAnalyzer.identifyKeyPages c9Pages
          (NoiseReducer.reduceNoise c9Pages)
          (FlowAnalyzer.buildIncomingLinksMap c9Pages
            (NoiseReducer.reduceNoise c9Pages)))
        "" = false := by
  decide

/-- C9 witness: a page map with a non-empty start key, run through the
actual pipeline inputs. -/
theorem claim_C9_witness :
    "p1" ∈ FlowAnalyzer.identifyKeyPages c3Pages
        (NoiseReducer.reduceNoise c3Pages)
        (FlowAnalyzer.buildIncomingLinksMap c3Pages
          (NoiseReducer.reduceNoise c3Pages)) :=
  claim_C9 c3Pages (NoiseReducer.reduceNoise c3Pages)
    (FlowAnalyzer.buildIncomingLinksMap c3Pages
      (NoiseReducer.reduceNoise c3Pages))
    ("p1",
      { url := "p1", title := "", depth := 0
        outgoingLinks :=
          [{ href := "n", text := "m", position := LinkPosition.content
             context := "" }] })
    (by decide) (by decide)

/-! ## C10 and C4: sizes of the key-page selection -/

theorem insertDescByScore_perm (x : String × Frac)
    (l : List (String × Frac)) :
    List.Perm (FlowAnalyzer.insertDescByScore x l) (x :: l) := by
  induction l with
  | nil => exact List.Perm.refl _
  | cons y ys ih =>
    unfold FlowAnalyzer.insertDescByScore
    split
    · exact List.Perm.refl _
    · exact (ih.cons y).trans (List.Perm.swap x y ys)

theorem sortByScoreDesc_perm (l : List (String × Frac)) :
    List.Perm (FlowAnalyzer.sortByScoreDesc l) l := by
  induction l with
  | nil => exact List.Perm.refl _
  | cons x xs ih =>
    exact (insertDescByScore_perm x _).trans (ih.cons x)

theorem pageScoresOf_map_fst (pages : Pages)
    (noiseResult : NoiseReductionResult)
    (incomingLinks : List (String × Nat)) :
    (FlowAnalyzer.pageScoresOf pages noiseResult incomingLinks).map
        Prod.fst = pages.map Prod.fst := by
  unfold FlowAnalyzer.pageScoresOf
  rw [List.map_map]
  rfl

theorem sortedPagesOf_length (pages : Pages)
    (noiseResult : NoiseReductionResult)
    (incomingLinks : List (String × Nat)) :
    (FlowAnalyzer.sortedPagesOf pages noiseResult incomingLinks).length =
      pages.length := by
  unfold FlowAnalyzer.sortedPagesOf
  rw [(sortByScoreDesc_perm _).length_eq]
  unfold FlowAnalyzer.pageScoresOf
  rw [List.length_map]

theorem sortedPagesOf_map_fst_nodup (pages : Pages)
    (noiseResult : NoiseReductionResult)
    (incomingLinks : List (String × Nat))
    (hnd : (pages.map Prod.fst).Nodup) :
    ((FlowAnalyzer.sortedPagesOf pages noiseResult incomingLinks).map
      Prod.fst).Nodup := by
  unfold FlowAnalyzer.sortedPagesOf
  refine ((sortByScoreDesc_perm _).map Prod.fst).nodup_iff.mpr ?_
  rw [pageScoresOf_map_fst]
  exact hnd

theorem foldl_setAdd_pairs_eq (items : List (String × Frac))
    (init : List String) (hnd : (items.map Prod.fst).Nodup)
    (hdisj : ∀ x ∈ items.map Prod.fst, x ∉ init) :
    items.foldl (fun s e => setAdd s e.1) init =
      init ++ items.map Prod.fst := by
  induction items generalizing init with
  | nil => simp
  | cons p ps ih =>
    simp only [List.map_cons, List.nodup_cons] at hnd
    have hp : p.1 ∉ init := hdisj p.1 (by simp)
    have hsetAdd : setAdd init p.1 = init ++ [p.1] := by
      unfold setAdd
      rw [if_neg]
      intro hl
      exact hp ((listHas_iff_mem _ _).mp hl)
    have hdisj' : ∀ x ∈ ps.map Prod.fst, x ∉ init ++ [p.1] := by
      intro x hx
      simp only [List.mem_append, List.mem_singleton]
      rintro (hxi | rfl)
      · exact hdisj x (by simp [hx]) hxi
      · exact hnd.1 hx
    simp only [List.foldl_cons, hsetAdd]
    rw [ih (init ++ [p.1]) hnd.2 hdisj']
    simp

theorem foldl_setAdd_pairs_length_le (items : List (String × Frac))
    (init : List String) :
    (items.foldl (fun s e => setAdd s e.1) init).length ≤
      init.length + items.length := by
  induction items generalizing init with
  | nil => simp
  | cons p ps ih =>
    simp only [List.foldl_cons, List.length_cons]
    calc (ps.foldl (fun s e => setAdd s e.1) (setAdd init p.1)).length ≤
        (setAdd init p.1).length + ps.length := ih _
      _ ≤ init.length + (ps.length + 1) := by
          have := setAdd_length_le init p.1
          omega

theorem le_foldl_setAdd_pairs_length (items : List (String × Frac))
    (init : List String) :
    init.length ≤ (items.foldl (fun s e => setAdd s e.1) init).length := by
  induction items generalizing init with
  | nil => exact le_refl _
  | cons p ps ih =>
    simp only [List.foldl_cons]
    exact (length_le_setAdd_length init p.1).trans (ih _)

theorem keyPagesBase_length_lower (pages : Pages)
    (noiseResult : NoiseReductionResult)
    (incomingLinks : List (String × Nat))
    (hnd : (pages.map Prod.fst).Nodup) :
    min pages.length 10 ≤
      (FlowAnalyzer.keyPagesBase pages noiseResult incomingLinks).length := by
  have htarget : 10 ≤ FlowAnalyzer.targetNodeCount pages.length :=
    le_max_left _ _
  have hnodup := sortedPagesOf_map_fst_nodup pages noiseResult incomingLinks
    hnd
  have htakend : (((FlowAnalyzer.sortedPagesOf pages noiseResult
      incomingLinks).take (FlowAnalyzer.targetNodeCount pages.length)).map
        Prod.fst).Nodup := by
    rw [List.map_take]
    exact hnodup.sublist (List.take_sublist _ _)
  have hfold := foldl_setAdd_pairs_eq
    ((FlowAnalyzer.sortedPagesOf pages noiseResult incomingLinks).take
      (FlowAnalyzer.targetNodeCount pages.length)) [] htakend
    (by intro x _ hx; simp at hx)
  have hfoldlen : (((FlowAnalyzer.sortedPagesOf pages noiseResult
      incomingLinks).take (FlowAnalyzer.targetNodeCount pages.length)).foldl
        (fun s e => setAdd s e.1) []).length =
      min (FlowAnalyzer.targetNodeCount pages.length) pages.length := by
    rw [hfold]
    simp [sortedPagesOf_length]
  unfold FlowAnalyzer.keyPagesBase
  cases hh : pages.head? with
  | none =>
    simp only [hh]
    rw [hfoldlen]
    omega
  | some e =>
    simp only [hh]
    split
    · have := length_le_setAdd_length
        (((FlowAnalyzer.sortedPagesOf pages noiseResult incomingLinks).take
          (FlowAnalyzer.targetNodeCount pages.length)).foldl
            (fun s e => setAdd s e.1) []) e.1
      rw [hfoldlen] at this
      omega
    · rw [hfoldlen]
      omega

theorem keyPagesBase_length_upper (pages : Pages)
    (noiseResult : NoiseReductionResult)
    (incomingLinks : List (String × Nat)) :
    (FlowAnalyzer.keyPagesBase pages noiseResult incomingLinks).length ≤
      FlowAnalyzer.targetNodeCount pages.length + 1 := by
  have hfoldle := foldl_setAdd_pairs_length_le
    ((FlowAnalyzer.sortedPagesOf pages noiseResult incomingLinks).take
      (FlowAnalyzer.targetNodeCount pages.length)) []
  simp only [List.length_nil, Nat.zero_add] at hfoldle
  have htakelen : ((FlowAnalyzer.sortedPagesOf pages noiseResult
      incomingLinks).take (FlowAnalyzer.targetNodeCount pages.length)).length
        ≤ FlowAnalyzer.targetNodeCount pages.length := by
    simp [List.length_take]
  unfold FlowAnalyzer.keyPagesBase
  cases hh : pages.head? with
  | none =>
    simp only [hh]
    omega
  | some e =>
    simp only [hh]
    split
    · have := setAdd_length_le
        (((FlowAnalyzer.sortedPagesOf pages noiseResult incomingLinks).take
          (FlowAnalyzer.targetNodeCount pages.length)).foldl
            (fun s e => setAdd s e.1) []) e.1
      omega
    · omega

theorem identifyKeyPages_eq_keyPagesBase (pages : Pages)
    (noiseResult : NoiseReductionResult)
    (incomingLinks : List (String × Nat))
    (hnd : (pages.map Prod.fst).Nodup) :
    FlowAnalyzer.identifyKeyPages pages noiseResult incomingLinks =
      FlowAnalyzer.keyPagesBase pages noiseResult incomingLinks := by
  simp only [FlowAnalyzer.identifyKeyPages]
  rw [if_neg]
  rintro ⟨hlt, hge⟩
  have := keyPagesBase_length_lower pages noiseResult incomingLinks hnd
  omega

/-- C10: for every page map with distinct keys, the selection already holds
at least `min(totalPages, 10)` pages before the safety check, so the widening
branch guarded by `count < 5 ∧ totalPages ≥ 5` never fires and the selector
returns the base selection unchanged. -/
theorem claim_C10 (pages : Pages) (noiseResult : NoiseReductionResult)
    (incomingLinks : List (String × Nat))
    (hnd : (pages.map Prod.fst).Nodup) (hne : pages ≠ []) :
    min pages.length 10 ≤
        (FlowAnalyzer.keyPagesBase pages noiseResult incomingLinks).length ∧
      FlowAnalyzer.identifyKeyPages pages noiseResult incomingLinks =
        FlowAnalyzer.keyPagesBase pages noiseResult incomingLinks :=
  ⟨keyPagesBase_length_lower pages noiseResult incomingLinks hnd,
   identifyKeyPages_eq_keyPagesBase pages noiseResult incomingLinks hnd⟩

/-- C10 witness: the eleven-page map from C9's construction. -/
theorem claim_C10_witness :
    min c9Pages.length 10 ≤
        (FlowAnalyzer.keyPagesBase c9Pages (NoiseReducer.reduceNoise c9Pages)
          (FlowAnalyzer.buildIncomingLinksMap c9Pages
            (NoiseReducer.reduceNoise c9Pages))).length ∧
      FlowAnalyzer.identifyKeyPages c9Pages (NoiseReducer.reduceNoise c9Pages)
          (FlowAnalyzer.buildIncomingLinksMap c9Pages
            (NoiseReducer.reduceNoise c9Pages)) =
        FlowAnalyzer.keyPagesBase c9Pages (NoiseReducer.reduceNoise c9Pages)
          (FlowAnalyzer.buildIncomingLinksMap c9Pages
            (NoiseReducer.reduceNoise c9Pages)) :=
  claim_C10 c9Pages (NoiseReducer.reduceNoise c9Pages)
    (FlowAnalyzer.buildIncomingLinksMap c9Pages
      (NoiseReducer.reduceNoise c9Pages))
    (by decide) (by decide)

/-- C4 (amended): with distinct keys and at least 34 pages, the key-page set
holds between 10 and 31 pages: the top `clamp(ceil(0.30·totalPages), 10, 30)`
pages plus possibly the unconditionally inserted start page, which can push
the size one past the claimed maximum of 30. -/
theorem claim_C4 (pages : Pages) (noiseResult : NoiseReductionResult)
    (incomingLinks : List (String × Nat))
    (hnd : (pages.map Prod.fst).Nodup) (h34 : 34 ≤ pages.length) :
    10 ≤ (FlowAnalyzer.identifyKeyPages pages noiseResult
        incomingLinks).length ∧
      (FlowAnalyzer.identifyKeyPages pages noiseResult
        incomingLinks).length ≤ 31 := by
  rw [identifyKeyPages_eq_keyPagesBase pages noiseResult incomingLinks hnd]
  have hlower := keyPagesBase_length_lower pages noiseResult incomingLinks hnd
  have hupper := keyPagesBase_length_upper pages noiseResult incomingLinks
  have htarget : FlowAnalyzer.targetNodeCount pages.length ≤ 30 := by
    simp only [FlowAnalyzer.targetNodeCount, FlowAnalyzer.MAX_NODES_IN_FLOW]
    omega
  omega

/-- 97 pages `u0 … u96`; the first page is the only one at depth 6, so it
scores lowest and falls outside the top 30. -/
def c4Pages : Pages :=
  (List.range 97).map fun i =>
    ("u" ++ toString i,
     { url := "u" ++ toString i, title := "", depth := if i = 0 then 6 else 0
       outgoingLinks := [] })

set_option maxRecDepth 8000 in
/-- C4 counterexample: a 97-page map (≥ 34) whose key-page set has 31
elements — the top 30 pages plus the unconditionally inserted start page —
violating the claimed maximum of 30. -/
theorem claim_C4_counterexample :
    c4Pages.length = 97 ∧
      (FlowAnalyzer.identifyKeyPages c4Pages
        (NoiseReducer.reduceNoise c4Pages)
        (FlowAnalyzer.buildIncomingLinksMap c4Pages
          (NoiseReducer.reduceNoise c4Pages))).length = 31 := by
  decide

set_option maxRecDepth 8000 in
/-- C4 witness: the amended bounds evaluated on the same 97-page map. -/
theorem claim_C4_witness :
    10 ≤ (FlowAnalyzer.identifyKeyPages c4Pages
        (NoiseReducer.reduceNoise c4Pages)
        (FlowAnalyzer.buildIncomingLinksMap c4Pages
          (NoiseReducer.reduceNoise c4Pages))).length ∧
      (FlowAnalyzer.identifyKeyPages c4Pages
        (NoiseReducer.reduceNoise c4Pages)
        (FlowAnalyzer.buildIncomingLinksMap c4Pages
          (NoiseReducer.reduceNoise c4Pages))).length ≤ 31 :=
  claim_C4 c4Pages (NoiseReducer.reduceNoise c4Pages)
    (FlowAnalyzer.buildIncomingLinksMap c4Pages
      (NoiseReducer.reduceNoise c4Pages))
    (by decide) (by decide)

/-! ## C6 and C7: the edge builder

The nested iteration of `buildEdges` is flattened into a sequence of
*events* `(edge key, anchor text)`, one per qualifying link occurrence, and
the final keyed edge map is characterized per key as a fold over the texts
recorded under that key. -/

/-- The qualifying link occurrences of `buildEdges`, in iteration order. -/
def edgeEvents (keyPages : List String) (cleanedPages : Pages) :
    List (String × String) :=
  (cleanedPages.map fun e =>
    if listHas keyPages e.1 then
      (e.2.outgoingLinks.filter fun link => listHas keyPages link.href).map
        fun link => (e.1 ++ "::" ++ link.href, link.text)
    else []).flatten

/-- The per-occurrence update the edge map performs on one entry. -/
def updEdge (o : Option FlowAnalyzer.EdgeData) (txt : String) :
    FlowAnalyzer.EdgeData :=
  match o with
  | none => { count := 1, label := txt }
  | some e =>
    { count := e.count + 1
      label :=
        if txt ≠ "" ∧ txt.length < e.label.length then txt else e.label }

theorem mapGet?_edgeStep (m : List (String × FlowAnalyzer.EdgeData))
    (k txt k' : String) :
    mapGet? (FlowAnalyzer.edgeStep m k txt) k' =
      if k = k' then some (updEdge (mapGet? m k) txt)
      else mapGet? m k' := by
  unfold FlowAnalyzer.edgeStep
  cases hk : mapGet? m k with
  | some e =>
    simp only [hk, Option.isSome_some, if_true, updEdge]
    rw [mapGet?_mapSet]
    split_ifs <;> rfl
  | none =>
    simp only [hk, Option.isSome_none, Bool.false_eq_true, if_false]
    have hget : mapGet? (mapSet m k { count := 0, label := txt }) k =
        some { count := 0, label := txt } := by
      rw [mapGet?_mapSet, if_pos rfl]
    rw [hget]
    have hguard : ¬(txt ≠ "" ∧ txt.length < txt.length) := by
      rintro ⟨-, hlt⟩
      exact lt_irrefl _ hlt
    simp only [if_neg hguard]
    rw [mapGet?_mapSet]
    by_cases hkk : k = k'
    · rw [if_pos hkk, if_pos hkk]
      rfl
    · rw [if_neg hkk, if_neg hkk, mapGet?_mapSet, if_neg hkk]

/-- The texts recorded under one key, in order. -/
def textsAt (k : String) (evs : List (String × String)) : List String :=
  (evs.filter fun ev => ev.1 = k).map Prod.snd

/-- Iterated per-occurrence updates. -/
def updList (o : Option FlowAnalyzer.EdgeData) (ts : List String) :
    Option FlowAnalyzer.EdgeData :=
  ts.foldl (fun o txt => some (updEdge o txt)) o

theorem foldl_edgeStep_get (evs : List (String × String))
    (m : List (String × FlowAnalyzer.EdgeData)) (k : String) :
    mapGet? (evs.foldl (fun m ev => FlowAnalyzer.edgeStep m ev.1 ev.2) m) k =
      updList (mapGet? m k) (textsAt k evs) := by
  induction evs generalizing m with
  | nil => rfl
  | cons ev rest ih =>
    simp only [List.foldl_cons]
    rw [ih]
    by_cases hk : ev.1 = k
    · have : textsAt k (ev :: rest) = ev.2 :: textsAt k rest := by
        simp [textsAt, List.filter_cons, hk]
      rw [this]
      simp only [updList, List.foldl_cons]
      rw [mapGet?_edgeStep, if_pos hk, hk]
    · have : textsAt k (ev :: rest) = textsAt k rest := by
        simp [textsAt, List.filter_cons, hk]
      rw [this, mapGet?_edgeStep, if_neg hk]

theorem edgeMap_links_fold (keyPages : List String) (srcUrl : String)
    (links : List Link) (m : List (String × FlowAnalyzer.EdgeData)) :
    links.foldl
        (fun m link =>
          if ¬listHas keyPages link.href = true then m
          else FlowAnalyzer.edgeStep m (srcUrl ++ "::" ++ link.href)
            link.text)
        m =
      ((links.filter fun link => listHas keyPages link.href).map
        (fun link => (srcUrl ++ "::" ++ link.href, link.text))).foldl
        (fun m ev => FlowAnalyzer.edgeStep m ev.1 ev.2) m := by
  induction links generalizing m with
  | nil => rfl
  | cons l ls ih =>
    by_cases hl : listHas keyPages l.href = true
    · simp only [List.foldl_cons, List.filter_cons, hl, if_true,
        List.map_cons, if_neg (by simp [hl] : ¬¬listHas keyPages l.href =
          true)]
      exact ih _
    · simp only [List.foldl_cons, List.filter_cons, hl,
        if_pos (by simp [hl] : ¬listHas keyPages l.href = true)]
      simp only [Bool.false_eq_true, if_false]
      exact ih _

theorem edgeMapOf_eq_events_fold (keyPages : List String)
    (cleanedPages : Pages) :
    FlowAnalyzer.edgeMapOf keyPages cleanedPages =
      (edgeEvents keyPages cleanedPages).foldl
        (fun m ev => FlowAnalyzer.edgeStep m ev.1 ev.2) [] := by
  suffices h : ∀ (m : List (String × FlowAnalyzer.EdgeData)),
      cleanedPages.foldl
        (fun m e =>
          if ¬listHas keyPages e.1 = true then m
          else
            e.2.outgoingLinks.foldl
              (fun m link =>
                if ¬listHas keyPages link.href = true then m
                else FlowAnalyzer.edgeStep m (e.1 ++ "::" ++ link.href)
                  link.text)
              m)
        m =
      (edgeEvents keyPages cleanedPages).foldl
        (fun m ev => FlowAnalyzer.edgeStep m ev.1 ev.2) m by
    exact h []
  induction cleanedPages with
  | nil => intro m; rfl
  | cons e rest ih =>
    intro m
    simp only [List.foldl_cons, edgeEvents, List.map_cons, List.flatten]
    rw [List.foldl_append]
    by_cases he : listHas keyPages e.1 = true
    · simp only [he, if_true, if_neg (by simp [he] : ¬¬listHas keyPages e.1 =
        true)]
      rw [edgeMap_links_fold]
      exact ih _
    · simp only [he, Bool.false_eq_true, if_false,
        if_pos (by simp [he] : ¬listHas keyPages e.1 = true)]
      simp only [List.foldl_nil]
      exact ih _

/-- The label evolution of one edge entry: starting from the first-seen text,
a later text replaces the label only when non-empty and strictly shorter. -/
def labelFold (cur : String) (ts : List String) : String :=
  ts.foldl (fun b t => if t ≠ "" ∧ t.length < b.length then t else b) cur

/-- First-seen minimum-length fold (strict improvement keeps the earliest). -/
def minFold (cur : String) (ts : List String) : String :=
  ts.foldl (fun b t => if t.length < b.length then t else b) cur

/-- The spec's label rule: the shortest non-empty anchor text seen for a
pair, first-seen winning ties (`""` for an empty candidate list). -/
def firstShortest : List String → String
  | [] => ""
  | x :: xs => minFold x xs

theorem labelFold_cons (cur t : String) (ts : List String) :
    labelFold cur (t :: ts) =
      labelFold (if t ≠ "" ∧ t.length < cur.length then t else cur) ts := rfl

theorem minFold_cons (cur t : String) (ts : List String) :
    minFold cur (t :: ts) =
      minFold (if t.length < cur.length then t else cur) ts := rfl

theorem updList_some (ts : List String) (e : FlowAnalyzer.EdgeData) :
    updList (some e) ts =
      some { count := e.count + ts.length, label := labelFold e.label ts } := by
  induction ts generalizing e with
  | nil => simp [updList, labelFold]
  | cons t ts ih =>
    simp only [updList, List.foldl_cons] at *
    rw [ih]
    simp only [updEdge, labelFold_cons, List.length_cons]
    have hc : e.count + 1 + ts.length = e.count + (ts.length + 1) := by omega
    rw [hc]

theorem updList_none_cons (t : String) (rest : List String) :
    updList none (t :: rest) =
      some { count := 1 + rest.length, label := labelFold t rest } := by
  simp only [updList, List.foldl_cons]
  have : updEdge none t = { count := 1, label := t } := rfl
  rw [this]
  have := updList_some rest { count := 1, label := t }
  simp only [updList] at this
  rw [this]

theorem labelFold_empty_start (ts : List String) : labelFold "" ts = "" := by
  induction ts with
  | nil => rfl
  | cons t ts ih =>
    rw [labelFold_cons]
    have hguard : ¬(t ≠ "" ∧ t.length < ("" : String).length) := by
      rintro ⟨-, hlt⟩
      rw [show ("" : String).length = 0 from rfl] at hlt
      exact Nat.not_lt_zero _ hlt
    rw [if_neg hguard]
    exact ih

theorem labelFold_eq_minFold (ts : List String) (cur : String)
    (hcur : cur ≠ "") :
    labelFold cur ts = minFold cur (ts.filter fun t => t ≠ "") := by
  induction ts generalizing cur with
  | nil => rfl
  | cons t ts ih =>
    rw [labelFold_cons]
    by_cases ht : t = ""
    · subst ht
      have hguard : ¬(("" : String) ≠ "" ∧
          ("" : String).length < cur.length) := by
        rintro ⟨hne, -⟩
        exact hne rfl
      rw [if_neg hguard]
      have hfilter : (("" : String) :: ts).filter (fun t => t ≠ "") =
          ts.filter (fun t => t ≠ "") := by
        simp [List.filter_cons]
      rw [hfilter]
      exact ih cur hcur
    · have hfilter : (t :: ts).filter (fun t => t ≠ "") =
          t :: ts.filter (fun t => t ≠ "") := by
        simp [List.filter_cons, ht]
      rw [hfilter, minFold_cons]
      by_cases hlt : t.length < cur.length
      · rw [if_pos ⟨ht, hlt⟩, if_pos hlt]
        exact ih t ht
      · rw [if_neg (by rintro ⟨-, h⟩; exact hlt h), if_neg hlt]
        exact ih cur hcur

theorem edgeStep_map_fst_nodup (m : List (String × FlowAnalyzer.EdgeData))
    (k txt : String) (h : (m.map Prod.fst).Nodup) :
    ((FlowAnalyzer.edgeStep m k txt).map Prod.fst).Nodup := by
  unfold FlowAnalyzer.edgeStep
  cases hk : mapGet? m k with
  | some e =>
    simp only [hk, Option.isSome_some, if_true]
    have hmem : k ∈ m.map Prod.fst := by
      rw [← mapGet?_isSome_iff, hk]
      rfl
    rw [mapSet_map_fst_of_mem _ _ _ hmem]
    exact h
  | none =>
    simp only [hk, Option.isSome_none, Bool.false_eq_true, if_false]
    have hnot : k ∈ m.map Prod.fst → False := by
      intro hmem
      rw [← mapGet?_isSome_iff, hk] at hmem
      simp at hmem
    have hget : mapGet? (mapSet m k { count := 0, label := txt }) k =
        some { count := 0, label := txt } := by
      rw [mapGet?_mapSet, if_pos rfl]
    rw [hget]
    have hmem' : k ∈ (mapSet m k { count := 0, label := txt }).map
        Prod.fst := by
      rw [← mapGet?_isSome_iff, hget]
      rfl
    rw [mapSet_map_fst_of_mem _ _ _ hmem',
      mapSet_map_fst_of_not_mem _ _ _ hnot]
    rw [List.nodup_append]
    refine ⟨h, List.nodup_singleton _, ?_⟩
    intro x hx hxk
    rw [List.mem_singleton] at hxk
    subst hxk
    exact hnot hx

theorem foldl_edgeStep_nodup (evs : List (String × String))
    (m : List (String × FlowAnalyzer.EdgeData))
    (h : (m.map Prod.fst).Nodup) :
    (((evs.foldl (fun m ev => FlowAnalyzer.edgeStep m ev.1 ev.2) m)).map
      Prod.fst).Nodup := by
  induction evs generalizing m with
  | nil => exact h
  | cons ev rest ih =>
    exact ih _ (edgeStep_map_fst_nodup m ev.1 ev.2 h)

theorem edgeMapOf_map_fst_nodup (keyPages : List String)
    (cleanedPages : Pages) :
    ((FlowAnalyzer.edgeMapOf keyPages cleanedPages).map Prod.fst).Nodup := by
  rw [edgeMapOf_eq_events_fold]
  exact foldl_edgeStep_nodup _ [] (by simp)

theorem edgeEvents_mem_shape (keyPages : List String) (cleanedPages : Pages)
    (ev : String × String) (h : ev ∈ edgeEvents keyPages cleanedPages) :
    ∃ e ∈ cleanedPages, ∃ l ∈ e.2.outgoingLinks,
      listHas keyPages e.1 = true ∧ listHas keyPages l.href = true ∧
      ev = (e.1 ++ "::" ++ l.href, l.text) := by
  unfold edgeEvents at h
  rw [List.mem_flatten] at h
  obtain ⟨block, hblock, hev⟩ := h
  rw [List.mem_map] at hblock
  obtain ⟨e, he, rfl⟩ := hblock
  by_cases hkp : listHas keyPages e.1 = true
  · rw [if_pos hkp] at hev
    rw [List.mem_map] at hev
    obtain ⟨l, hl, rfl⟩ := hev
    rw [List.mem_filter] at hl
    exact ⟨e, he, l, hl.1, hkp, hl.2, rfl⟩
  · rw [if_neg hkp] at hev
    simp at hev

theorem edgeMap_entry_get (keyPages : List String) (cleanedPages : Pages)
    (k : String) (d : FlowAnalyzer.EdgeData)
    (hmem : (k, d) ∈ FlowAnalyzer.edgeMapOf keyPages cleanedPages) :
    updList none (textsAt k (edgeEvents keyPages cleanedPages)) = some d := by
  have hget := mapGet?_of_mem_nodup _ _ _ hmem
    (edgeMapOf_map_fst_nodup keyPages cleanedPages)
  rw [edgeMapOf_eq_events_fold] at hget
  rw [foldl_edgeStep_get] at hget
  simpa [mapGet?] using hget

theorem string_data_append (a b : String) : (a ++ b).data = a.data ++ b.data
  := rfl

theorem string_eq_of_data {a b : String} (h : a.data = b.data) : a = b := by
  cases a
  cases b
  exact congrArg String.mk h

theorem append_dc_data (s t : String) :
    (s ++ "::" ++ t).data = s.data ++ ':' :: ':' :: t.data := by
  rw [string_data_append, string_data_append]
  rw [show ("::" : String).data = [':', ':'] from rfl]
  simp

theorem append_dc_inj {s t s' t' : String}
    (hs : containsSeq [':', ':'] s.data = false)
    (hls : s.data.getLast? ≠ some ':')
    (hs' : containsSeq [':', ':'] s'.data = false)
    (hls' : s'.data.getLast? ≠ some ':')
    (ht : containsSeq [':', ':'] t.data = false)
    (ht' : containsSeq [':', ':'] t'.data = false)
    (h : s ++ "::" ++ t = s' ++ "::" ++ t') : s = s' ∧ t = t' := by
  have hd : s.data ++ ':' :: ':' :: t.data =
      s'.data ++ ':' :: ':' :: t'.data := by
    have := congrArg String.data h
    rwa [append_dc_data, append_dc_data] at this
  have h1 := splitDoubleColon_append s.data t.data hs hls
  have h2 := splitDoubleColon_append s'.data t'.data hs' hls'
  rw [splitDoubleColon_no_sep _ ht] at h1
  rw [splitDoubleColon_no_sep _ ht'] at h2
  rw [hd, h2] at h1
  injection h1 with ha hb
  injection hb with hb
  exact ⟨(string_eq_of_data ha.symm), (string_eq_of_data hb.symm)⟩

/-- The anchor texts of the qualifying link occurrences of the pair
`(s, t)`, in iteration order: links of the cleaned page keyed `s` (a key
page) whose href is `t` (also a key page). -/
def pairTexts (cleanedPages : Pages) (keyPages : List String)
    (s t : String) : List String :=
  (cleanedPages.map fun e =>
    if e.1 = s ∧ listHas keyPages e.1 = true then
      (e.2.outgoingLinks.filter fun l =>
        l.href = t ∧ listHas keyPages l.href = true).map Link.text
    else []).flatten

theorem textsAt_append (k : String) (a b : List (String × String)) :
    textsAt k (a ++ b) = textsAt k a ++ textsAt k b := by
  simp [textsAt, List.filter_append]

theorem textsAt_block (keyPages : List String) (srcUrl : String)
    (links : List Link) (s t : String)
    (hsrc_nc : containsSeq [':', ':'] srcUrl.data = false)
    (hsrc_lc : srcUrl.data.getLast? ≠ some ':')
    (hkp : ∀ u ∈ keyPages, containsSeq [':', ':'] u.data = false)
    (hs : containsSeq [':', ':'] s.data = false)
    (hls : s.data.getLast? ≠ some ':')
    (ht : containsSeq [':', ':'] t.data = false) :
    textsAt (s ++ "::" ++ t)
        ((links.filter fun l => listHas keyPages l.href).map fun l =>
          (srcUrl ++ "::" ++ l.href, l.text)) =
      if srcUrl = s then
        (links.filter fun l =>
          l.href = t ∧ listHas keyPages l.href = true).map Link.text
      else [] := by
  induction links with
  | nil => by_cases hss : srcUrl = s <;> simp [textsAt, hss]
  | cons l ls ih =>
    by_cases hkl : listHas keyPages l.href = true
    · have hlsafe : containsSeq [':', ':'] l.href.data = false :=
        hkp l.href ((listHas_iff_mem _ _).mp hkl)
      rw [List.filter_cons, if_pos hkl, List.map_cons]
      have hstep : textsAt (s ++ "::" ++ t)
          ((srcUrl ++ "::" ++ l.href, l.text) ::
            (ls.filter fun l => listHas keyPages l.href).map fun l =>
              (srcUrl ++ "::" ++ l.href, l.text)) =
          (if srcUrl ++ "::" ++ l.href = s ++ "::" ++ t then [l.text]
            else []) ++
          textsAt (s ++ "::" ++ t)
            ((ls.filter fun l => listHas keyPages l.href).map fun l =>
              (srcUrl ++ "::" ++ l.href, l.text)) := by
        by_cases hkey : srcUrl ++ "::" ++ l.href = s ++ "::" ++ t
        · simp [textsAt, List.filter_cons, hkey]
        · simp [textsAt, List.filter_cons, hkey]
      rw [hstep, ih]
      by_cases hss : srcUrl = s
      · subst hss
        by_cases hht : l.href = t
        · subst hht
          simp [List.filter_cons, hkl]
        · have hne : srcUrl ++ "::" ++ l.href ≠ srcUrl ++ "::" ++ t := by
            intro hk
            exact hht (append_dc_inj hsrc_nc hsrc_lc hs hls hlsafe ht hk).2
          simp [List.filter_cons, hht, hne]
      · have hne : srcUrl ++ "::" ++ l.href ≠ s ++ "::" ++ t := by
          intro hk
          exact hss (append_dc_inj hsrc_nc hsrc_lc hs hls hlsafe ht hk).1
        simp [hne, hss]
    · simpa [List.filter_cons, hkl] using ih

theorem textsAt_eq_pairTexts (keyPages : List String)
    (cleanedPages : Pages) (s t : String)
    (hsafe : ∀ e ∈ cleanedPages,
      containsSeq [':', ':'] e.1.data = false ∧
        e.1.data.getLast? ≠ some ':')
    (hkp : ∀ u ∈ keyPages, containsSeq [':', ':'] u.data = false)
    (hs : containsSeq [':', ':'] s.data = false)
    (hls : s.data.getLast? ≠ some ':')
    (ht : containsSeq [':', ':'] t.data = false) :
    textsAt (s ++ "::" ++ t) (edgeEvents keyPages cleanedPages) =
      pairTexts cleanedPages keyPages s t := by
  induction cleanedPages with
  | nil => rfl
  | cons e rest ih =>
    have hsafe_e := hsafe e (by simp)
    have hsafe_rest : ∀ e' ∈ rest,
        containsSeq [':', ':'] e'.1.data = false ∧
          e'.1.data.getLast? ≠ some ':' :=
      fun e' he' => hsafe e' (by simp [he'])
    simp only [edgeEvents, pairTexts, List.map_cons, List.flatten_cons]
    rw [textsAt_append]
    have hrest := ih hsafe_rest
    simp only [edgeEvents, pairTexts] at hrest
    rw [hrest]
    congr 1
    by_cases hkpe : listHas keyPages e.1 = true
    · rw [if_pos hkpe]
      rw [textsAt_block keyPages e.1 e.2.outgoingLinks s t hsafe_e.1
        hsafe_e.2 hkp hs hls ht]
      by_cases hss : e.1 = s
      · rw [if_pos hss, if_pos ⟨hss, hkpe⟩]
      · rw [if_neg hss, if_neg (by rintro ⟨hc, -⟩; exact hss hc)]
    · rw [if_neg hkpe,
        if_neg (by rintro ⟨-, hc⟩; exact hkpe hc)]
      rfl

/-- C6 (amended): for every built edge (URLs free of `"::"` and not ending in
`':'`), the pair's qualifying occurrence list is non-empty and the label
follows the first-seen fold: if the first qualifying occurrence's anchor text
is empty, the label is the empty string (later non-empty texts never replace
it); otherwise the label is the shortest non-empty anchor text seen for the
pair, first-seen winning ties. -/
theorem claim_C6 (pages : Pages) (keyPages : List String)
    (noiseResult : NoiseReductionResult)
    (hsafe : ∀ e ∈ noiseResult.cleanedPages,
      containsSeq [':', ':'] e.1.data = false ∧
        e.1.data.getLast? ≠ some ':')
    (hkp : ∀ u ∈ keyPages, containsSeq [':', ':'] u.data = false) :
    ∀ fe ∈ FlowAnalyzer.buildEdges pages keyPages noiseResult,
      pairTexts noiseResult.cleanedPages keyPages fe.source fe.target ≠ [] ∧
        ((pairTexts noiseResult.cleanedPages keyPages fe.source
            fe.target).headD "" = "" → fe.label = "") ∧
        ((pairTexts noiseResult.cleanedPages keyPages fe.source
            fe.target).headD "" ≠ "" →
          fe.label = firstShortest
            ((pairTexts noiseResult.cleanedPages keyPages fe.source
              fe.target).filter fun t => t ≠ "")) := by
  intro fe hfe
  unfold FlowAnalyzer.buildEdges at hfe
  rw [List.mem_map] at hfe
  obtain ⟨⟨k, d⟩, hkd, hfe_eq⟩ := hfe
  have hupd := edgeMap_entry_get keyPages noiseResult.cleanedPages k d hkd
  have htexts_ne :
      textsAt k (edgeEvents keyPages noiseResult.cleanedPages) ≠ [] := by
    intro h0
    rw [h0] at hupd
    simp [updList] at hupd
  have hex : ∃ ev ∈ edgeEvents keyPages noiseResult.cleanedPages,
      ev.1 = k := by
    rcases hfil : (edgeEvents keyPages noiseResult.cleanedPages).filter
        (fun ev => ev.1 = k) with - | ⟨ev, evs⟩
    · exfalso
      apply htexts_ne
      unfold textsAt
      rw [hfil]
      rfl
    · have hev : ev ∈ (edgeEvents keyPages noiseResult.cleanedPages).filter
          (fun ev => ev.1 = k) := by
        rw [hfil]
        simp
      rw [List.mem_filter] at hev
      exact ⟨ev, hev.1, by simpa using hev.2⟩
  obtain ⟨ev, hev_mem, hev_key⟩ := hex
  obtain ⟨e, he, l, hl, hekp, hlkp, hevshape⟩ :=
    edgeEvents_mem_shape _ _ _ hev_mem
  have hk_eq : k = e.1 ++ "::" ++ l.href := by
    rw [← hev_key, hevshape]
  have hse := hsafe e he
  have hts : containsSeq [':', ':'] l.href.data = false :=
    hkp _ ((listHas_iff_mem _ _).mp hlkp)
  have hparts : splitDoubleColon k.data = [e.1.data, l.href.data] := by
    rw [hk_eq, append_dc_data,
      splitDoubleColon_append _ _ hse.1 hse.2,
      splitDoubleColon_no_sep _ hts]
  have hsource : fe.source = e.1 := by
    rw [← hfe_eq]
    show (⟨(splitDoubleColon k.data).getD 0 []⟩ : String) = e.1
    rw [hparts]
    rfl
  have htarget : fe.target = l.href := by
    rw [← hfe_eq]
    show (⟨(splitDoubleColon k.data).getD 1 []⟩ : String) = l.href
    rw [hparts]
    rfl
  have hlabel : fe.label = d.label := by
    rw [← hfe_eq]
  have htexts : textsAt k (edgeEvents keyPages noiseResult.cleanedPages) =
      pairTexts noiseResult.cleanedPages keyPages e.1 l.href := by
    rw [hk_eq]
    exact textsAt_eq_pairTexts keyPages noiseResult.cleanedPages e.1 l.href
      hsafe hkp hse.1 hse.2 hts
  rw [htexts] at hupd htexts_ne
  rw [hsource, htarget, hlabel]
  rcases hpt : pairTexts noiseResult.cleanedPages keyPages e.1 l.href with
    - | ⟨t₁, rest⟩
  · exact absurd hpt htexts_ne
  · rw [hpt] at hupd
    rw [updList_none_cons] at hupd
    have hdlabel : d.label = labelFold t₁ rest := by
      injection hupd with hupd'
      rw [← hupd']
    refine ⟨by simp, ?_, ?_⟩
    · intro h1
      rw [List.headD_cons] at h1
      subst h1
      rw [hdlabel, labelFold_empty_start]
    · intro h1
      rw [List.headD_cons] at h1
      rw [hdlabel, labelFold_eq_minFold rest t₁ h1]
      have hfil : (t₁ :: rest).filter (fun t => t ≠ "") =
          t₁ :: rest.filter (fun t => t ≠ "") := by
        simp [List.filter_cons, h1]
      rw [hfil]
      rfl

/-- Cleaned pages for the C6 counterexample: one page `"a"` with two links to
`"b"`, the first with empty anchor text. -/
def c6Nr : NoiseReductionResult :=
  { cleanedPages :=
      [("a",
        { url := "a", title := "", depth := 0
          outgoingLinks :=
            [{ href := "b", text := "", position := LinkPosition.content
               context := "" },
             { href := "b", text := "xy", position := LinkPosition.content
               context := "" }] })]
    noiseLinks := []
    noiseCategories := []
    globalNavigation := []
    hubPages := [] }

/-- The two key pages of the C6 examples. -/
def c6KeyPages : List String := ["a", "b"]

/-- C6 counterexample: the pair `(a, b)` has a qualifying occurrence with the
non-empty text `"xy"`, whose shortest non-empty candidate is `"xy"`, yet the
built edge's label is the empty string, because the empty first-seen text can
never be replaced (`text.length < "".length` is impossible). -/
theorem claim_C6_counterexample :
    (FlowAnalyzer.buildEdges [] c6KeyPages c6Nr).map FlowEdge.label =
        [""] ∧
      pairTexts c6Nr.cleanedPages c6KeyPages "a" "b" = ["", "xy"] ∧
      firstShortest ((pairTexts c6Nr.cleanedPages c6KeyPages "a"
        "b").filter fun t => t ≠ "") = "xy" := by
  decide

/-- Cleaned pages for the C6 witness: texts `"go"` then `"x"`. -/
def c6wNr : NoiseReductionResult :=
  { cleanedPages :=
      [("a",
        { url := "a", title := "", depth := 0
          outgoingLinks :=
            [{ href := "b", text := "go", position := LinkPosition.content
               context := "" },
             { href := "b", text := "x", position := LinkPosition.content
               context := "" }] })]
    noiseLinks := []
    noiseCategories := []
    globalNavigation := []
    hubPages := [] }

/-- C6 witness: with a non-empty first text, the label is the first-seen
shortest non-empty anchor text of the pair. -/
theorem claim_C6_witness :
    ({ source := "a", target := "b", weight := 2, label := "x" } :
        FlowEdge).label =
      firstShortest ((pairTexts c6wNr.cleanedPages c6KeyPages
        ({ source := "a", target := "b", weight := 2, label := "x" } :
          FlowEdge).source
        ({ source := "a", target := "b", weight := 2, label := "x" } :
          FlowEdge).target).filter fun t => t ≠ "") :=
  ((claim_C6 [] c6KeyPages c6wNr (by decide) (by decide)
    { source := "a", target := "b", weight := 2, label := "x" }
    (by decide)).2.2) (by decide)

/-! ## C7: no dangling edge references -/

theorem mem_foldl_setAdd_pairs (l : List (String × Frac))
    (init : List String) (x : String) :
    (x ∈ l.foldl (fun s e => setAdd s e.1) init) ↔
      x ∈ init ∨ x ∈ l.map Prod.fst := by
  induction l generalizing init with
  | nil => simp
  | cons p ps ih =>
    simp only [List.foldl_cons, ih, mem_setAdd, List.map_cons,
      List.mem_cons]
    constructor
    · rintro ((hx | rfl) | hx)
      · exact Or.inl hx
      · exact Or.inr (Or.inl rfl)
      · exact Or.inr (Or.inr hx)
    · rintro (hx | rfl | hx)
      · exact Or.inl (Or.inl hx)
      · exact Or.inl (Or.inr rfl)
      · exact Or.inr hx

theorem head?_mem {α : Type} (l : List α) (e : α) (h : l.head? = some e) :
    e ∈ l := by
  cases l with
  | nil => simp at h
  | cons x xs =>
    simp only [List.head?_cons, Option.some.injEq] at h
    subst h
    simp

theorem take_map_fst_subset (l : List (String × Frac)) (n : Nat)
    (x : String) (hx : x ∈ (l.take n).map Prod.fst) :
    x ∈ l.map Prod.fst := by
  rw [List.map_take] at hx
  exact List.take_subset _ _ hx

theorem sortedPagesOf_map_fst_subset (pages : Pages)
    (noiseResult : NoiseReductionResult)
    (incomingLinks : List (String × Nat)) (x : String)
    (hx : x ∈ (FlowAnalyzer.sortedPagesOf pages noiseResult
      incomingLinks).map Prod.fst) :
    x ∈ pages.map Prod.fst := by
  unfold FlowAnalyzer.sortedPagesOf at hx
  rw [((sortByScoreDesc_perm _).map Prod.fst).mem_iff] at hx
  rwa [pageScoresOf_map_fst] at hx

theorem identifyKeyPages_subset (pages : Pages)
    (noiseResult : NoiseReductionResult)
    (incomingLinks : List (String × Nat)) :
    ∀ x ∈ FlowAnalyzer.identifyKeyPages pages noiseResult incomingLinks,
      x ∈ pages.map Prod.fst := by
  have hbase : ∀ y ∈ FlowAnalyzer.keyPagesBase pages noiseResult
      incomingLinks, y ∈ pages.map Prod.fst := by
    intro y hy
    simp only [FlowAnalyzer.keyPagesBase] at hy
    cases hh : pages.head? with
    | none =>
      rw [hh] at hy
      rw [mem_foldl_setAdd_pairs] at hy
      rcases hy with hy | hy
      · simp at hy
      · exact sortedPagesOf_map_fst_subset pages noiseResult incomingLinks y
          (take_map_fst_subset _ _ _ hy)
    | some e =>
      rw [hh] at hy
      dsimp only at hy
      have hmem_fold : ∀ z, z ∈ ((FlowAnalyzer.sortedPagesOf pages
          noiseResult incomingLinks).take (FlowAnalyzer.targetNodeCount
            pages.length)).foldl (fun s e => setAdd s e.1) [] →
          z ∈ pages.map Prod.fst := by
        intro z hz
        rw [mem_foldl_setAdd_pairs] at hz
        rcases hz with hz | hz
        · simp at hz
        · exact sortedPagesOf_map_fst_subset pages noiseResult incomingLinks
            z (take_map_fst_subset _ _ _ hz)
      by_cases hne : e.1 ≠ ""
      · rw [if_pos hne, mem_setAdd] at hy
        rcases hy with hy | rfl
        · exact hmem_fold y hy
        · exact List.mem_map.mpr ⟨e, head?_mem pages e hh, rfl⟩
      · rw [if_neg hne] at hy
        exact hmem_fold y hy
  intro x hx
  simp only [FlowAnalyzer.identifyKeyPages] at hx
  split at hx
  · rw [mem_foldl_setAdd_pairs] at hx
    rcases hx with hx | hx
    · exact hbase x hx
    · exact sortedPagesOf_map_fst_subset pages noiseResult incomingLinks x
        (take_map_fst_subset _ _ _ hx)
  · exact hbase x hx

theorem cleanPages_map_fst (pages : Pages) (noise : List String) :
    (NoiseReducer.cleanPages pages noise).map Prod.fst =
      pages.map Prod.fst := by
  unfold NoiseReducer.cleanPages
  rw [List.map_map]
  rfl

theorem reduceNoise_cleanedPages_map_fst (pages : Pages) :
    ((NoiseReducer.reduceNoise pages).cleanedPages).map Prod.fst =
      pages.map Prod.fst := by
  simp only [NoiseReducer.reduceNoise]
  split <;> exact cleanPages_map_fst _ _

theorem mem_mapSet_cases {β : Type} (m : List (String × β)) (k : String)
    (v : β) (e' : String × β) (h : e' ∈ mapSet m k v) :
    e' ∈ m ∨ e' = (k, v) := by
  induction m with
  | nil =>
    simp only [mapSet, List.mem_singleton] at h
    exact Or.inr h
  | cons e₀ rest ih =>
    obtain ⟨k₀, v₀⟩ := e₀
    by_cases h₀ : k₀ = k
    · simp only [mapSet, if_pos h₀, List.mem_cons] at h
      rcases h with h | h
      · exact Or.inr h
      · exact Or.inl (by simp [h])
    · simp only [mapSet, if_neg h₀, List.mem_cons] at h
      rcases h with h | h
      · exact Or.inl (by simp [h])
      · rcases ih h with h' | h'
        · exact Or.inl (by simp [h'])
        · exact Or.inr h'

theorem mapSet_key_mem {β : Type} (m : List (String × β)) (k : String)
    (v : β) : k ∈ (mapSet m k v).map Prod.fst := by
  by_cases h : k ∈ m.map Prod.fst
  · rw [mapSet_map_fst_of_mem _ _ _ h]
    exact h
  · rw [mapSet_map_fst_of_not_mem _ _ _ h]
    simp

theorem mapSet_keys_mono {β : Type} (m : List (String × β)) (k : String)
    (v : β) (x : String) (h : x ∈ m.map Prod.fst) :
    x ∈ (mapSet m k v).map Prod.fst := by
  by_cases hk : k ∈ m.map Prod.fst
  · rwa [mapSet_map_fst_of_mem _ _ _ hk]
  · rw [mapSet_map_fst_of_not_mem _ _ _ hk]
    simp [h]

theorem buildNodes_fold_keys_mono (pages : Pages) (urls : List String)
    (acc : List (String × FlowNode)) (x : String)
    (hx : x ∈ acc.map Prod.fst) :
    x ∈ (urls.foldl
      (fun nodes url =>
        match mapGet? pages url with
        | none => nodes
        | some page =>
          mapSet nodes url
            { id := url
              label := FlowAnalyzer.generateNodeLabel url page.title
              url := url
              type := FlowAnalyzer.inferNodeType url page.title
              metadata :=
                { depth := page.depth
                  pageTitle := page.title
                  pathSegments := UrlUtils.getPathSegments url } })
      acc).map Prod.fst := by
  induction urls generalizing acc with
  | nil => exact hx
  | cons url rest ih =>
    simp only [List.foldl_cons]
    cases h : mapGet? pages url with
    | none => exact ih acc hx
    | some page => exact ih _ (mapSet_keys_mono _ _ _ _ hx)

theorem mem_buildNodes_keys (pages : Pages) (keyPages : List String)
    (u : String) (hu : u ∈ keyPages) (hpg : u ∈ pages.map Prod.fst) :
    u ∈ (FlowAnalyzer.buildNodes pages keyPages).map Prod.fst := by
  unfold FlowAnalyzer.buildNodes
  suffices h : ∀ (urls : List String) (acc : List (String × FlowNode)),
      u ∈ urls →
      u ∈ (urls.foldl
        (fun nodes url =>
          match mapGet? pages url with
          | none => nodes
          | some page =>
            mapSet nodes url
              { id := url
                label := FlowAnalyzer.generateNodeLabel url page.title
                url := url
                type := FlowAnalyzer.inferNodeType url page.title
                metadata :=
                  { depth := page.depth
                    pageTitle := page.title
                    pathSegments := UrlUtils.getPathSegments url } })
        acc).map Prod.fst by
    exact h keyPages [] hu
  intro urls
  induction urls with
  | nil => intro acc h; simp at h
  | cons url rest ih =>
    intro acc h
    simp only [List.foldl_cons]
    rcases List.mem_cons.mp h with rfl | h
    · cases hg : mapGet? pages u with
      | none =>
        exfalso
        have hs : (mapGet? pages u).isSome = true :=
          (mapGet?_isSome_iff pages u).mpr hpg
        rw [hg] at hs
        simp at hs
      | some page =>
        exact buildNodes_fold_keys_mono pages rest _ u
          (mapSet_key_mem _ _ _)
    · exact ih _ h

theorem buildNodes_id_fst (pages : Pages) (keyPages : List String) :
    ∀ e' ∈ FlowAnalyzer.buildNodes pages keyPages, e'.2.id = e'.1 := by
  unfold FlowAnalyzer.buildNodes
  suffices h : ∀ (urls : List String) (acc : List (String × FlowNode)),
      (∀ e' ∈ acc, e'.2.id = e'.1) →
      ∀ e' ∈ urls.foldl
        (fun nodes url =>
          match mapGet? pages url with
          | none => nodes
          | some page =>
            mapSet nodes url
              { id := url
                label := FlowAnalyzer.generateNodeLabel url page.title
                url := url
                type := FlowAnalyzer.inferNodeType url page.title
                metadata :=
                  { depth := page.depth
                    pageTitle := page.title
                    pathSegments := UrlUtils.getPathSegments url } })
        acc, e'.2.id = e'.1 by
    exact h keyPages [] (by simp)
  intro urls
  induction urls with
  | nil => exact fun acc h => h
  | cons url rest ih =>
    intro acc hacc
    simp only [List.foldl_cons]
    cases hg : mapGet? pages url with
    | none => exact ih acc hacc
    | some page =>
      apply ih
      intro e' he'
      rcases mem_mapSet_cases _ _ _ _ he' with h1 | h1
      · exact hacc e' h1
      · rw [h1]

theorem mem_node_ids (pages : Pages) (keyPages : List String) (u : String)
    (hu : u ∈ keyPages) (hpg : u ∈ pages.map Prod.fst) :
    u ∈ ((FlowAnalyzer.buildNodes pages keyPages).map Prod.snd).map
      FlowNode.id := by
  have hk := mem_buildNodes_keys pages keyPages u hu hpg
  rw [List.mem_map] at hk
  obtain ⟨e', he', heq⟩ := hk
  rw [List.map_map, List.mem_map]
  refine ⟨e', he', ?_⟩
  show FlowNode.id e'.2 = u
  rw [buildNodes_id_fst pages keyPages e' he', heq]

theorem edgeMap_key_shape (keyPages : List String) (cleanedPages : Pages)
    (k : String) (d : FlowAnalyzer.EdgeData)
    (hkd : (k, d) ∈ FlowAnalyzer.edgeMapOf keyPages cleanedPages) :
    ∃ e ∈ cleanedPages, ∃ l ∈ e.2.outgoingLinks,
      listHas keyPages e.1 = true ∧ listHas keyPages l.href = true ∧
      k = e.1 ++ "::" ++ l.href := by
  have hupd := edgeMap_entry_get keyPages cleanedPages k d hkd
  have htexts_ne : textsAt k (edgeEvents keyPages cleanedPages) ≠ [] := by
    intro h0
    rw [h0] at hupd
    simp [updList] at hupd
  have hex : ∃ ev ∈ edgeEvents keyPages cleanedPages, ev.1 = k := by
    rcases hfil : (edgeEvents keyPages cleanedPages).filter
        (fun ev => ev.1 = k) with - | ⟨ev, evs⟩
    · exfalso
      apply htexts_ne
      unfold textsAt
      rw [hfil]
      rfl
    · have hev : ev ∈ (edgeEvents keyPages cleanedPages).filter
          (fun ev => ev.1 = k) := by
        rw [hfil]
        simp
      rw [List.mem_filter] at hev
      exact ⟨ev, hev.1, by simpa using hev.2⟩
  obtain ⟨ev, hev_mem, hev_key⟩ := hex
  obtain ⟨e, he, l, hl, hekp, hlkp, hevshape⟩ :=
    edgeEvents_mem_shape _ _ _ hev_mem
  exact ⟨e, he, l, hl, hekp, hlkp, by rw [← hev_key, hevshape]⟩

theorem buildEdges_ends_in_nodes (pages : Pages) (keyPages : List String)
    (noiseResult : NoiseReductionResult)
    (hkeys : noiseResult.cleanedPages.map Prod.fst = pages.map Prod.fst)
    (hkp_sub : ∀ u ∈ keyPages, u ∈ pages.map Prod.fst)
    (hsafe : ∀ u ∈ pages.map Prod.fst,
      containsSeq [':', ':'] u.data = false ∧
        u.data.getLast? ≠ some ':') :
    ∀ fe ∈ FlowAnalyzer.buildEdges pages keyPages noiseResult,
      fe.source ∈ ((FlowAnalyzer.buildNodes pages keyPages).map
        Prod.snd).map FlowNode.id ∧
      fe.target ∈ ((FlowAnalyzer.buildNodes pages keyPages).map
        Prod.snd).map FlowNode.id := by
  intro fe hfe
  unfold FlowAnalyzer.buildEdges at hfe
  rw [List.mem_map] at hfe
  obtain ⟨⟨k, d⟩, hkd, hfe_eq⟩ := hfe
  obtain ⟨e, he, l, hl, hekp, hlkp, hk_eq⟩ :=
    edgeMap_key_shape keyPages noiseResult.cleanedPages k d hkd
  have he1pg : e.1 ∈ pages.map Prod.fst := by
    rw [← hkeys]
    exact List.mem_map.mpr ⟨e, he, rfl⟩
  have he1kp : e.1 ∈ keyPages := (listHas_iff_mem _ _).mp hekp
  have hhrefkp : l.href ∈ keyPages := (listHas_iff_mem _ _).mp hlkp
  have hhrefpg : l.href ∈ pages.map Prod.fst := hkp_sub _ hhrefkp
  have hse := hsafe e.1 he1pg
  have hst := hsafe l.href hhrefpg
  have hparts : splitDoubleColon k.data = [e.1.data, l.href.data] := by
    rw [hk_eq, append_dc_data,
      splitDoubleColon_append _ _ hse.1 hse.2,
      splitDoubleColon_no_sep _ hst.1]
  have hsource : fe.source = e.1 := by
    rw [← hfe_eq]
    show (⟨(splitDoubleColon k.data).getD 0 []⟩ : String) = e.1
    rw [hparts]
    rfl
  have htarget : fe.target = l.href := by
    rw [← hfe_eq]
    show (⟨(splitDoubleColon k.data).getD 1 []⟩ : String) = l.href
    rw [hparts]
    rfl
  constructor
  · rw [hsource]
    exact mem_node_ids pages keyPages e.1 he1kp he1pg
  · rw [htarget]
    exact mem_node_ids pages keyPages l.href hhrefkp hhrefpg

/-- C7 (amended): for every input page map whose keys are free of the
substring `"::"` and do not end in `':'`, and every start URL, every edge of
the analyzed flow references node ids present in the flow's node list.  (The
hypothesis is forced: `buildEdges` encodes a pair as `source + "::" + target`
and decodes it with `split("::")`, so a `"::"` inside a URL makes the decoded
endpoints differ from any node id.) -/
theorem claim_C7 (pages : Pages) (startUrl : String)
    (hsafe : ∀ u ∈ pages.map Prod.fst,
      containsSeq [':', ':'] u.data = false ∧
        u.data.getLast? ≠ some ':') :
    ∀ fe ∈ (FlowAnalyzer.analyze pages startUrl).edges,
      fe.source ∈ (FlowAnalyzer.analyze pages startUrl).nodes.map
        FlowNode.id ∧
      fe.target ∈ (FlowAnalyzer.analyze pages startUrl).nodes.map
        FlowNode.id := by
  intro fe hfe
  simp only [FlowAnalyzer.analyze] at hfe ⊢
  exact buildEdges_ends_in_nodes pages
    (FlowAnalyzer.identifyKeyPages pages (NoiseReducer.reduceNoise pages)
      (FlowAnalyzer.buildIncomingLinksMap pages
        (NoiseReducer.reduceNoise pages)))
    (NoiseReducer.reduceNoise pages)
    (reduceNoise_cleanedPages_map_fst pages)
    (identifyKeyPages_subset pages (NoiseReducer.reduceNoise pages)
      (FlowAnalyzer.buildIncomingLinksMap pages
        (NoiseReducer.reduceNoise pages)))
    hsafe fe hfe

/-- A two-page map whose second key contains `"::"`. -/
def pagesC7 : Pages :=
  [("s", { url := "s", title := "", depth := 0,
           outgoingLinks := [{ href := "x::y", text := "go",
                               position := .content, context := "" }] }),
   ("x::y", { url := "x::y", title := "", depth := 1,
              outgoingLinks := [] })]

/-- C7 as stated fails: with a page key containing `"::"`, the single built
edge has target `"x"`, which is no node id (the node ids are `"x::y"` and
`"s"`). -/
theorem claim_C7_counterexample :
    ¬ ∀ fe ∈ (FlowAnalyzer.analyze pagesC7 "s").edges,
      fe.source ∈ (FlowAnalyzer.analyze pagesC7 "s").nodes.map
        FlowNode.id ∧
      fe.target ∈ (FlowAnalyzer.analyze pagesC7 "s").nodes.map
        FlowNode.id := by
  decide

/-- The same two pages with a `"::"`-free second key. -/
def pagesC7w : Pages :=
  [("s", { url := "s", title := "", depth := 0,
           outgoingLinks := [{ href := "t", text := "go",
                               position := .content, context := "" }] }),
   ("t", { url := "t", title := "", depth := 1,
           outgoingLinks := [] })]

theorem claim_C7_witness :
    ({ source := "s", target := "t", weight := 1, label := "go" } :
        FlowEdge).source ∈
      (FlowAnalyzer.analyze pagesC7w "s").nodes.map FlowNode.id ∧
    ({ source := "s", target := "t", weight := 1, label := "go" } :
        FlowEdge).target ∈
      (FlowAnalyzer.analyze pagesC7w "s").nodes.map FlowNode.id :=
  claim_C7 pagesC7w "s" (by decide) _ (by decide)

/-! ## C8: idempotence of the URL normalizer -/

theorem splitFirstChar_fst_not_mem (sep : Char) (x : List Char) :
    sep ∉ (splitFirstChar sep x).1 := by
  induction x with
  | nil => simp [splitFirstChar]
  | cons c rest ih =>
    by_cases h : c = sep
    · simp [splitFirstChar, h]
    · simp only [splitFirstChar, if_neg h, List.mem_cons, not_or]
      exact ⟨fun hc => h hc.symm, ih⟩

theorem splitFirstChar_fst_sub (sep : Char) (x : List Char) :
    ∀ c ∈ (splitFirstChar sep x).1, c ∈ x := by
  induction x with
  | nil => simp [splitFirstChar]
  | cons c rest ih =>
    by_cases h : c = sep
    · simp [splitFirstChar, h]
    · simp only [splitFirstChar, if_neg h]
      intro d hd
      rcases List.mem_cons.mp hd with rfl | hd
      · simp
      · exact List.mem_cons_of_mem _ (ih d hd)

theorem splitFirstChar_snd_sub (sep : Char) (x : List Char) :
    ∀ c ∈ ((splitFirstChar sep x).2).getD [], c ∈ x := by
  induction x with
  | nil => simp [splitFirstChar]
  | cons c rest ih =>
    by_cases h : c = sep
    · simp only [splitFirstChar, if_pos h]
      intro d hd
      exact List.mem_cons_of_mem _ hd
    · simp only [splitFirstChar, if_neg h]
      intro d hd
      exact List.mem_cons_of_mem _ (ih d hd)

theorem splitFirstChar_not_mem (sep : Char) (x : List Char) (h : sep ∉ x) :
    splitFirstChar sep x = (x, none) := by
  induction x with
  | nil => rfl
  | cons c rest ih =>
    have hc : ¬c = sep := fun hh => h (by simp [hh])
    have hr : sep ∉ rest := fun hh => h (List.mem_cons_of_mem _ hh)
    simp [splitFirstChar, hc, ih hr]

theorem splitFirstChar_append_cons (sep : Char) (a b : List Char)
    (h : sep ∉ a) : splitFirstChar sep (a ++ sep :: b) = (a, some b) := by
  induction a with
  | nil => simp [splitFirstChar]
  | cons c rest ih =>
    have hc : ¬c = sep := fun hh => h (by simp [hh])
    have hr : sep ∉ rest := fun hh => h (List.mem_cons_of_mem _ hh)
    simp [splitFirstChar, hc, ih hr]

theorem startsWithSeq_two (a b : Char) (x : List Char)
    (h : startsWithSeq [a, b] x = true) : ∃ ys, x = a :: b :: ys := by
  cases x with
  | nil => simp [startsWithSeq] at h
  | cons c rest =>
    cases rest with
    | nil =>
      simp only [startsWithSeq] at h
      by_cases h1 : a = c
      · rw [if_pos h1] at h
        exact absurd h (by simp [startsWithSeq])
      · rw [if_neg h1] at h
        exact absurd h (by simp)
    | cons d ys =>
      simp only [startsWithSeq] at h
      by_cases h1 : a = c
      · by_cases h2 : b = d
        · exact ⟨ys, by rw [h1, h2]⟩
        · rw [if_pos h1, if_neg h2] at h
          exact absurd h (by simp)
      · rw [if_neg h1] at h
        exact absurd h (by simp)

theorem startsWithSeq_ss_append (p1 t t' : List Char) :
    startsWithSeq ['/', '/'] (p1 ++ ':' :: '/' :: '/' :: t) =
      startsWithSeq ['/', '/'] (p1 ++ ':' :: '/' :: '/' :: t') := by
  cases p1 with
  | nil => rfl
  | cons x p1' =>
    cases p1' with
    | nil => rfl
    | cons y p1'' => rfl

theorem splitScheme_decomp (x : List Char) :
    ∀ sch rest, splitScheme x = some (sch, rest) →
      x = sch ++ ':' :: '/' :: '/' :: rest := by
  induction x with
  | nil => intro sch rest h; simp [splitScheme] at h
  | cons c xs ih =>
    intro sch rest h
    by_cases hc : c = ':' ∧ startsWithSeq ['/', '/'] xs = true
    · rw [splitScheme, if_pos hc] at h
      have h' := (Option.some.injEq _ _).mp h
      have hsch : sch = [] := (congrArg Prod.fst h').symm
      have hrest : rest = xs.drop 2 := (congrArg Prod.snd h').symm
      obtain ⟨ys, rfl⟩ := startsWithSeq_two '/' '/' xs hc.2
      subst hsch
      subst hrest
      simp [hc.1]
    · rw [splitScheme, if_neg hc] at h
      cases hsx : splitScheme xs with
      | none => rw [hsx] at h; simp at h
      | some p =>
        obtain ⟨p1, p2⟩ := p
        rw [hsx] at h
        simp only [Option.map_some'] at h
        have h' := (Option.some.injEq _ _).mp h
        have hsch : sch = c :: p1 := (congrArg Prod.fst h').symm
        have hrest : rest = p2 := (congrArg Prod.snd h').symm
        rw [hsch, hrest, List.cons_append, ← ih p1 p2 hsx]

theorem splitScheme_roundtrip (x : List Char) :
    ∀ sch rest, splitScheme x = some (sch, rest) →
      ∀ t, splitScheme (sch ++ ':' :: '/' :: '/' :: t) = some (sch, t) := by
  induction x with
  | nil => intro sch rest h; simp [splitScheme] at h
  | cons c xs ih =>
    intro sch rest h t
    by_cases hc : c = ':' ∧ startsWithSeq ['/', '/'] xs = true
    · rw [splitScheme, if_pos hc] at h
      have h' := (Option.some.injEq _ _).mp h
      have hsch : sch = [] := (congrArg Prod.fst h').symm
      subst hsch
      rw [List.nil_append, splitScheme,
        if_pos ⟨rfl, by simp [startsWithSeq]⟩]
      rfl
    · rw [splitScheme, if_neg hc] at h
      cases hsx : splitScheme xs with
      | none => rw [hsx] at h; simp at h
      | some p =>
        obtain ⟨p1, p2⟩ := p
        rw [hsx] at h
        simp only [Option.map_some'] at h
        have h' := (Option.some.injEq _ _).mp h
        have hsch : sch = c :: p1 := (congrArg Prod.fst h').symm
        have hxs : xs = p1 ++ ':' :: '/' :: '/' :: p2 :=
          splitScheme_decomp xs p1 p2 hsx
        have hguard : ¬(c = ':' ∧
            startsWithSeq ['/', '/'] (p1 ++ ':' :: '/' :: '/' :: t) =
              true) := by
          rintro ⟨hc1, hc2⟩
          apply hc
          refine ⟨hc1, ?_⟩
          rw [hxs, startsWithSeq_ss_append p1 p2 t]
          exact hc2
        rw [hsch, List.cons_append, splitScheme, if_neg hguard,
          ih p1 p2 hsx t]
        rfl

theorem splitAll_not_mem (sep : Char) (x : List Char) (h : sep ∉ x) :
    splitAll sep x = [x] := by
  induction x with
  | nil => rfl
  | cons c rest ih =>
    have hc : ¬c = sep := fun hh => h (by simp [hh])
    have hr : sep ∉ rest := fun hh => h (List.mem_cons_of_mem _ hh)
    simp [splitAll, hc, ih hr]

theorem splitAll_append_cons (sep : Char) (a b : List Char) (h : sep ∉ a) :
    splitAll sep (a ++ sep :: b) = a :: splitAll sep b := by
  induction a with
  | nil => simp [splitAll]
  | cons c rest ih =>
    have hc : ¬c = sep := fun hh => h (by simp [hh])
    have hr : sep ∉ rest := fun hh => h (List.mem_cons_of_mem _ hh)
    have hrec : splitAll sep (rest ++ sep :: b) = rest :: splitAll sep b :=
      ih hr
    simp only [List.cons_append, splitAll, if_neg hc]
    rw [show splitAll sep (List.append rest (sep :: b)) =
      rest :: splitAll sep b from hrec]

theorem splitAll_seg_not_mem (sep : Char) (x : List Char) :
    ∀ seg ∈ splitAll sep x, sep ∉ seg := by
  induction x with
  | nil =>
    intro seg h
    simp [splitAll] at h
    subst h
    simp
  | cons c rest ih =>
    intro seg h
    by_cases hc : c = sep
    · simp only [splitAll, if_pos hc] at h
      rcases List.mem_cons.mp h with rfl | h
      · simp
      · exact ih seg h
    · simp only [splitAll, if_neg hc] at h
      cases hsx : splitAll sep rest with
      | nil =>
        rw [hsx] at h
        simp at h
        subst h
        simp
        exact fun hh => hc hh.symm
      | cons p ps =>
        rw [hsx] at h
        rcases List.mem_cons.mp h with rfl | h
        · have hp : sep ∉ p := ih p (by rw [hsx]; simp)
          intro hm
          rcases List.mem_cons.mp hm with hm | hm
          · exact hc hm.symm
          · exact hp hm
        · exact ih seg (by rw [hsx]; simp [h])

theorem splitAll_seg_sub (sep : Char) (x : List Char) :
    ∀ seg ∈ splitAll sep x, ∀ c ∈ seg, c ∈ x := by
  induction x with
  | nil =>
    intro seg h
    simp [splitAll] at h
    subst h
    simp
  | cons c rest ih =>
    intro seg h
    by_cases hc : c = sep
    · simp only [splitAll, if_pos hc] at h
      rcases List.mem_cons.mp h with rfl | h
      · simp
      · intro d hd
        exact List.mem_cons_of_mem _ (ih seg h d hd)
    · simp only [splitAll, if_neg hc] at h
      cases hsx : splitAll sep rest with
      | nil =>
        rw [hsx] at h
        simp at h
        subst h
        intro d hd
        simp at hd
        simp [hd]
      | cons p ps =>
        rw [hsx] at h
        rcases List.mem_cons.mp h with rfl | h
        · intro d hd
          rcases List.mem_cons.mp hd with rfl | hd
          · simp
          · exact List.mem_cons_of_mem _ (ih p (by rw [hsx]; simp) d hd)
        · intro d hd
          exact List.mem_cons_of_mem _
            (ih seg (by rw [hsx]; simp [h]) d hd)

theorem parseParams_wf (q : List Char) (p : Param) (h : p ∈ parseParams q) :
    '=' ∉ p.1 ∧ '&' ∉ p.1 ∧ '&' ∉ p.2 ∧
      (∀ c ∈ p.1, c ∈ q) ∧ (∀ c ∈ p.2, c ∈ q) := by
  unfold parseParams at h
  rw [List.mem_filterMap] at h
  obtain ⟨seg, hseg, hp⟩ := h
  by_cases hnil : seg = []
  · rw [if_pos hnil] at hp
    exact absurd hp (by simp)
  · rw [if_neg hnil] at hp
    have hp' := (Option.some.injEq _ _).mp hp
    have hsegsep : '&' ∉ seg := splitAll_seg_not_mem '&' q seg hseg
    have hsegsub : ∀ c ∈ seg, c ∈ q := splitAll_seg_sub '&' q seg hseg
    have h1 : p.1 = (splitFirstChar '=' seg).1 := by rw [← hp']
    have h2 : p.2 = ((splitFirstChar '=' seg).2).getD [] := by rw [← hp']
    refine ⟨?_, ?_, ?_, ?_, ?_⟩
    · rw [h1]
      exact splitFirstChar_fst_not_mem '=' seg
    · rw [h1]
      exact fun hc => hsegsep (splitFirstChar_fst_sub '=' seg _ hc)
    · rw [h2]
      exact fun hc => hsegsep (splitFirstChar_snd_sub '=' seg _ hc)
    · rw [h1]
      exact fun c hc => hsegsub c (splitFirstChar_fst_sub '=' seg c hc)
    · rw [h2]
      exact fun c hc => hsegsub c (splitFirstChar_snd_sub '=' seg c hc)

theorem mem_joinParams (ps : List Param) (c : Char)
    (h : c ∈ joinParams ps) :
    c = '=' ∨ c = '&' ∨ ∃ p ∈ ps, c ∈ p.1 ∨ c ∈ p.2 := by
  induction ps with
  | nil => simp [joinParams] at h
  | cons p ps ih =>
    cases ps with
    | nil =>
      simp only [joinParams] at h
      rcases List.mem_append.mp h with h | h
      · exact Or.inr (Or.inr ⟨p, by simp, Or.inl h⟩)
      · rcases List.mem_cons.mp h with h | h
        · exact Or.inl h
        · exact Or.inr (Or.inr ⟨p, by simp, Or.inr h⟩)
    | cons q rest =>
      simp only [joinParams] at h
      rcases List.mem_append.mp h with h | h
      · rcases List.mem_append.mp h with h | h
        · exact Or.inr (Or.inr ⟨p, by simp, Or.inl h⟩)
        · rcases List.mem_cons.mp h with h | h
          · exact Or.inl h
          · exact Or.inr (Or.inr ⟨p, by simp, Or.inr h⟩)
      · rcases List.mem_cons.mp h with h | h
        · exact Or.inr (Or.inl h)
        · rcases ih h with h | h | ⟨r, hr, h⟩
          · exact Or.inl h
          · exact Or.inr (Or.inl h)
          · exact Or.inr (Or.inr ⟨r, List.mem_cons_of_mem _ hr, h⟩)

theorem parseParams_joinParams (ps : List Param)
    (hwf : ∀ p ∈ ps, '=' ∉ p.1 ∧ '&' ∉ p.1 ∧ '&' ∉ p.2) :
    parseParams (joinParams ps) = ps := by
  induction ps with
  | nil => rfl
  | cons p ps ih =>
    have hwfp := hwf p (by simp)
    have hwfr : ∀ r ∈ ps, '=' ∉ r.1 ∧ '&' ∉ r.1 ∧ '&' ∉ r.2 :=
      fun r hr => hwf r (List.mem_cons_of_mem _ hr)
    have hnoamp : '&' ∉ p.1 ++ '=' :: p.2 := by
      intro hc
      rcases List.mem_append.mp hc with h | h
      · exact hwfp.2.1 h
      · rcases List.mem_cons.mp h with h | h
        · exact absurd h (by decide)
        · exact hwfp.2.2 h
    have hne : ¬(p.1 ++ '=' :: p.2 = []) := by simp
    have hfa : (if p.1 ++ '=' :: p.2 = [] then none
        else
          some ((splitFirstChar '=' (p.1 ++ '=' :: p.2)).1,
            ((splitFirstChar '=' (p.1 ++ '=' :: p.2)).2).getD [])) =
        some p := by
      rw [if_neg hne, splitFirstChar_append_cons '=' p.1 p.2 hwfp.1]
      rfl
    cases ps with
    | nil =>
      show parseParams (p.1 ++ '=' :: p.2) = [p]
      unfold parseParams
      rw [splitAll_not_mem '&' _ hnoamp]
      rw [List.filterMap_cons]
      rw [hfa]
      rfl
    | cons q rest =>
      show parseParams ((p.1 ++ '=' :: p.2) ++ '&' :: joinParams (q :: rest))
        = p :: q :: rest
      unfold parseParams
      rw [splitAll_append_cons '&' _ _ hnoamp]
      rw [List.filterMap_cons]
      rw [hfa]
      have hrest := ih hwfr
      unfold parseParams at hrest
      rw [hrest]

def paramsSorted : List Param → Bool
  | [] => true
  | [_] => true
  | p :: q :: rest => leChars p.1 q.1 && paramsSorted (q :: rest)

theorem leChars_total (a b : List Char) :
    leChars a b = true ∨ leChars b a = true := by
  induction a generalizing b with
  | nil => exact Or.inl rfl
  | cons x xs ih =>
    cases b with
    | nil => exact Or.inr rfl
    | cons y ys =>
      by_cases h1 : x.val < y.val
      · left
        simp [leChars, h1]
      · by_cases h2 : y.val < x.val
        · right
          simp [leChars, h2]
        · rcases ih ys with h | h
          · left
            simp [leChars, h1, h2, h]
          · right
            simp [leChars, h1, h2, h]

theorem mem_insertParam (p r : Param) (qs : List Param) :
    r ∈ insertParam p qs ↔ r = p ∨ r ∈ qs := by
  induction qs with
  | nil => simp [insertParam]
  | cons q qs ih =>
    simp only [insertParam]
    by_cases h : leChars p.1 q.1 = true
    · rw [if_pos h]
      simp [List.mem_cons]
    · rw [if_neg h]
      rw [List.mem_cons, ih, List.mem_cons]
      tauto

theorem mem_sortParams (r : Param) (ps : List Param) :
    r ∈ sortParams ps ↔ r ∈ ps := by
  induction ps with
  | nil => simp [sortParams]
  | cons p ps ih =>
    simp only [sortParams]
    rw [mem_insertParam, ih, List.mem_cons]

theorem insertParam_sorted (p : Param) (qs : List Param)
    (h : paramsSorted qs = true) :
    paramsSorted (insertParam p qs) = true := by
  induction qs with
  | nil => rfl
  | cons q qs ih =>
    simp only [insertParam]
    by_cases hle : leChars p.1 q.1 = true
    · rw [if_pos hle]
      simp only [paramsSorted, Bool.and_eq_true]
      exact ⟨hle, h⟩
    · rw [if_neg hle]
      have hq : leChars q.1 p.1 = true :=
        (leChars_total p.1 q.1).resolve_left hle
      cases qs with
      | nil => simp [insertParam, paramsSorted, hq]
      | cons r rs =>
        have h1 : leChars q.1 r.1 = true := by
          simp only [paramsSorted, Bool.and_eq_true] at h
          exact h.1
        have h2 : paramsSorted (r :: rs) = true := by
          simp only [paramsSorted, Bool.and_eq_true] at h
          exact h.2
        simp only [insertParam]
        by_cases hle2 : leChars p.1 r.1 = true
        · rw [if_pos hle2]
          simp only [paramsSorted, Bool.and_eq_true]
          exact ⟨hq, hle2, h2⟩
        · rw [if_neg hle2]
          have hrec : paramsSorted (insertParam p (r :: rs)) = true :=
            ih h2
          rw [show insertParam p (r :: rs) = r :: insertParam p rs from by
            simp [insertParam, hle2]] at hrec
          simp only [paramsSorted, Bool.and_eq_true]
          exact ⟨h1, hrec⟩

theorem sortParams_sorted (ps : List Param) :
    paramsSorted (sortParams ps) = true := by
  induction ps with
  | nil => rfl
  | cons p ps ih => exact insertParam_sorted p (sortParams ps) ih

theorem sortParams_eq_of_sorted (ps : List Param)
    (h : paramsSorted ps = true) : sortParams ps = ps := by
  induction ps with
  | nil => rfl
  | cons p ps ih =>
    cases ps with
    | nil => rfl
    | cons q rest =>
      have h1 : leChars p.1 q.1 = true := by
        simp only [paramsSorted, Bool.and_eq_true] at h
        exact h.1
      have h2 : paramsSorted (q :: rest) = true := by
        simp only [paramsSorted, Bool.and_eq_true] at h
        exact h.2
      show insertParam p (sortParams (q :: rest)) = p :: q :: rest
      rw [ih h2]
      simp [insertParam, h1]

theorem stripSlash_idem_of (p : List Char)
    (h : ¬(p.getLast? = some '/' ∧ p.dropLast.getLast? = some '/' ∧
      2 < p.length)) :
    stripSlash (stripSlash p) = stripSlash p := by
  by_cases h1 : p.getLast? = some '/' ∧ 1 < p.length
  · have hs1 : stripSlash p = p.dropLast := by
      simp only [stripSlash, if_pos h1]
    rw [hs1]
    simp only [stripSlash]
    rw [if_neg ?hcond]
    case hcond =>
      rintro ⟨ha, hb⟩
      apply h
      refine ⟨h1.1, ha, ?_⟩
      rw [List.length_dropLast] at hb
      omega
  · have hs1 : stripSlash p = p := by
      simp only [stripSlash, if_neg h1]
    rw [hs1]
    exact hs1

theorem stripSlash_shape (pt : List Char) :
    ∃ pt', stripSlash ('/' :: pt) = '/' :: pt' ∧ ∀ c ∈ pt', c ∈ pt := by
  by_cases h : ('/' :: pt).getLast? = some '/' ∧ 1 < ('/' :: pt).length
  · simp only [stripSlash, if_pos h]
    cases pt with
    | nil => exact absurd h (by simp)
    | cons c rest =>
      refine ⟨(c :: rest).dropLast, ?_, ?_⟩
      · rfl
      · intro d hd
        exact List.dropLast_subset _ hd
  · simp only [stripSlash, if_neg h]
    exact ⟨pt, rfl, fun c hc => hc⟩

theorem urlParse_some_shape (x : List Char) (u : ParsedUrl)
    (h : urlParse x = some u) :
    (∀ t, splitScheme (u.scheme ++ ':' :: '/' :: '/' :: t) =
      some (u.scheme, t)) ∧
    '#' ∉ u.scheme ∧ '?' ∉ u.scheme ∧
    '#' ∉ u.host ∧ '?' ∉ u.host ∧ '/' ∉ u.host ∧
    (∃ pt, u.path = '/' :: pt ∧ '#' ∉ pt ∧ '?' ∉ pt) ∧
    '#' ∉ u.query := by
  simp only [urlParse] at h
  cases hsp : splitScheme
      (splitFirstChar '?' (splitFirstChar '#' x).1).1 with
  | none => rw [hsp] at h; simp at h
  | some sr =>
    obtain ⟨sch, rest⟩ := sr
    rw [hsp] at h
    dsimp only at h
    have hu := (Option.some.injEq _ _).mp h
    subst hu
    have hb : '#' ∉ (splitFirstChar '#' x).1 :=
      splitFirstChar_fst_not_mem '#' x
    have hq1sub : ∀ c ∈ (splitFirstChar '?' (splitFirstChar '#' x).1).1,
        c ∈ (splitFirstChar '#' x).1 :=
      splitFirstChar_fst_sub '?' (splitFirstChar '#' x).1
    have hq2sub :
        ∀ c ∈ ((splitFirstChar '?' (splitFirstChar '#' x).1).2).getD [],
          c ∈ (splitFirstChar '#' x).1 :=
      splitFirstChar_snd_sub '?' (splitFirstChar '#' x).1
    have hqm : '?' ∉ (splitFirstChar '?' (splitFirstChar '#' x).1).1 :=
      splitFirstChar_fst_not_mem '?' (splitFirstChar '#' x).1
    have hdec : (splitFirstChar '?' (splitFirstChar '#' x).1).1 =
        sch ++ ':' :: '/' :: '/' :: rest :=
      splitScheme_decomp _ sch rest hsp
    have hschmem : ∀ c ∈ sch,
        c ∈ (splitFirstChar '?' (splitFirstChar '#' x).1).1 := by
      intro c hc
      rw [hdec]
      exact List.mem_append_left _ hc
    have hrestmem : ∀ c ∈ rest,
        c ∈ (splitFirstChar '?' (splitFirstChar '#' x).1).1 := by
      intro c hc
      rw [hdec]
      refine List.mem_append_right _ ?_
      exact List.mem_cons_of_mem _ (List.mem_cons_of_mem _
        (List.mem_cons_of_mem _ hc))
    have hhostsub : ∀ c ∈ (splitFirstChar '/' rest).1, c ∈ rest :=
      splitFirstChar_fst_sub '/' rest
    refine ⟨?_, ?_, ?_, ?_, ?_, ?_, ?_, ?_⟩
    · exact splitScheme_roundtrip _ sch rest hsp
    · exact fun hc => hb (hq1sub '#' (hschmem '#' hc))
    · exact fun hc => hqm (hschmem '?' hc)
    · exact fun hc => hb (hq1sub '#' (hrestmem '#' (hhostsub '#' hc)))
    · exact fun hc => hqm (hrestmem '?' (hhostsub '?' hc))
    · exact splitFirstChar_fst_not_mem '/' rest
    · cases hp2 : (splitFirstChar '/' rest).2 with
      | none =>
        refine ⟨[], rfl, by simp, by simp⟩
      | some ptl =>
        refine ⟨ptl, rfl, ?_, ?_⟩
        · intro hc
          have hm : '#' ∈ ((splitFirstChar '/' rest).2).getD [] := by
            rw [hp2]
            exact hc
          exact hb (hq1sub '#' (hrestmem '#'
            (splitFirstChar_snd_sub '/' rest '#' hm)))
        · intro hc
          have hm : '?' ∈ ((splitFirstChar '/' rest).2).getD [] := by
            rw [hp2]
            exact hc
          exact hqm (hrestmem '?'
            (splitFirstChar_snd_sub '/' rest '?' hm))
    · exact fun hc => hb (hq2sub '#' hc)

theorem urlParse_serializeUrl (scheme host ptail : List Char)
    (ps : List Param)
    (hsch : ∀ t, splitScheme (scheme ++ ':' :: '/' :: '/' :: t) =
      some (scheme, t))
    (hschq : '?' ∉ scheme) (hschh : '#' ∉ scheme)
    (hhostsl : '/' ∉ host) (hhostq : '?' ∉ host) (hhosth : '#' ∉ host)
    (hptq : '?' ∉ ptail) (hpth : '#' ∉ ptail)
    (hjh : '#' ∉ joinParams ps) :
    urlParse (serializeUrl scheme host ('/' :: ptail) ps) =
      some { scheme := scheme, host := host, path := '/' :: ptail,
             query := joinParams ps } := by
  have hA : ∀ c, c ∈ scheme ++ ':' :: '/' :: '/' :: (host ++ '/' :: ptail)
      → c ∈ scheme ∨ c = ':' ∨ c = '/' ∨ c ∈ host ∨ c ∈ ptail := by
    intro c hc
    rcases List.mem_append.mp hc with h | h
    · exact Or.inl h
    · rcases List.mem_cons.mp h with h | h
      · exact Or.inr (Or.inl h)
      · rcases List.mem_cons.mp h with h | h
        · exact Or.inr (Or.inr (Or.inl h))
        · rcases List.mem_cons.mp h with h | h
          · exact Or.inr (Or.inr (Or.inl h))
          · rcases List.mem_append.mp h with h | h
            · exact Or.inr (Or.inr (Or.inr (Or.inl h)))
            · rcases List.mem_cons.mp h with h | h
              · exact Or.inr (Or.inr (Or.inl h))
              · exact Or.inr (Or.inr (Or.inr (Or.inr h)))
  have hhA : '#' ∉ scheme ++ ':' :: '/' :: '/' :: (host ++ '/' :: ptail)
      := by
    intro hc
    rcases hA '#' hc with h | h | h | h | h
    · exact hschh h
    · exact absurd h (by decide)
    · exact absurd h (by decide)
    · exact hhosth h
    · exact hpth h
  have hqA : '?' ∉ scheme ++ ':' :: '/' :: '/' :: (host ++ '/' :: ptail)
      := by
    intro hc
    rcases hA '?' hc with h | h | h | h | h
    · exact hschq h
    · exact absurd h (by decide)
    · exact absurd h (by decide)
    · exact hhostq h
    · exact hptq h
  cases ps with
  | nil =>
    have hS : serializeUrl scheme host ('/' :: ptail) [] =
        scheme ++ ':' :: '/' :: '/' :: (host ++ '/' :: ptail) := by
      simp [serializeUrl, List.append_assoc]
    rw [hS]
    simp only [urlParse]
    rw [splitFirstChar_not_mem '#' _ hhA]
    dsimp only
    rw [splitFirstChar_not_mem '?' _ hqA]
    dsimp only
    rw [hsch (host ++ '/' :: ptail)]
    dsimp only
    rw [splitFirstChar_append_cons '/' host ptail hhostsl]
    rfl
  | cons p₀ ps' =>
    have hS : serializeUrl scheme host ('/' :: ptail) (p₀ :: ps') =
        (scheme ++ ':' :: '/' :: '/' :: (host ++ '/' :: ptail)) ++
          '?' :: joinParams (p₀ :: ps') := by
      simp [serializeUrl, List.append_assoc]
    rw [hS]
    have hhS : '#' ∉ (scheme ++ ':' :: '/' :: '/' ::
        (host ++ '/' :: ptail)) ++ '?' :: joinParams (p₀ :: ps') := by
      intro hc
      rcases List.mem_append.mp hc with h | h
      · exact hhA h
      · rcases List.mem_cons.mp h with h | h
        · exact absurd h (by decide)
        · exact hjh h
    simp only [urlParse]
    rw [splitFirstChar_not_mem '#' _ hhS]
    dsimp only
    rw [splitFirstChar_append_cons '?' _ _ hqA]
    dsimp only
    rw [hsch (host ++ '/' :: ptail)]
    dsimp only
    rw [splitFirstChar_append_cons '/' host ptail hhostsl]
    rfl

/-- C8 (amended): the normalizer is idempotent on every input except those
that parse to a path ending in a double slash (longer than `"//"` itself):
since `normalize` strips only ONE trailing slash, such a path still ends in
`'/'` after one pass and loses another slash on the second pass.  Malformed
inputs (no `"://"`) are returned unchanged and are trivially idempotent. -/
theorem claim_C8 (s : String)
    (hsafe : ∀ u, urlParse s.data = some u →
      ¬(u.path.getLast? = some '/' ∧ u.path.dropLast.getLast? = some '/' ∧
        2 < u.path.length)) :
    UrlUtils.normalize (UrlUtils.normalize s) = UrlUtils.normalize s := by
  cases hp : urlParse s.data with
  | none =>
    have h1 : UrlUtils.normalize s = s := by
      simp [UrlUtils.normalize, hp]
    rw [h1]
    exact h1
  | some u =>
    have h1 : UrlUtils.normalize s =
        ⟨serializeUrl u.scheme u.host (stripSlash u.path)
          (sortParams (parseParams u.query))⟩ := by
      simp [UrlUtils.normalize, hp]
    obtain ⟨hsch, hschh, hschq, hhosth, hhostq, hhostsl,
      ⟨pt, hpt, hpth, hptq⟩, hqh⟩ := urlParse_some_shape s.data u hp
    obtain ⟨pt', hpt', hptsub⟩ := stripSlash_shape pt
    have hstrip : stripSlash u.path = '/' :: pt' := by
      rw [hpt]
      exact hpt'
    have hwf : ∀ p ∈ sortParams (parseParams u.query),
        '=' ∉ p.1 ∧ '&' ∉ p.1 ∧ '&' ∉ p.2 := by
      intro p hpm
      have hw := parseParams_wf u.query p ((mem_sortParams p _).mp hpm)
      exact ⟨hw.1, hw.2.1, hw.2.2.1⟩
    have hjps : '#' ∉ joinParams (sortParams (parseParams u.query)) := by
      intro hc
      rcases mem_joinParams _ '#' hc with h | h | ⟨p, hpmem, h⟩
      · exact absurd h (by decide)
      · exact absurd h (by decide)
      · have hw := parseParams_wf u.query p ((mem_sortParams p _).mp hpmem)
        rcases h with h | h
        · exact hqh (hw.2.2.2.1 _ h)
        · exact hqh (hw.2.2.2.2 _ h)
    have hparse2 : urlParse (serializeUrl u.scheme u.host
        (stripSlash u.path) (sortParams (parseParams u.query))) =
        some { scheme := u.scheme, host := u.host,
               path := stripSlash u.path,
               query := joinParams (sortParams (parseParams u.query)) }
        := by
      rw [hstrip]
      exact urlParse_serializeUrl u.scheme u.host pt'
        (sortParams (parseParams u.query)) hsch hschq hschh hhostsl
        hhostq hhosth (fun hc => hptq (hptsub _ hc))
        (fun hc => hpth (hptsub _ hc)) hjps
    rw [h1]
    simp only [UrlUtils.normalize]
    rw [hparse2]
    dsimp only
    rw [stripSlash_idem_of u.path (hsafe u hp)]
    rw [parseParams_joinParams (sortParams (parseParams u.query)) hwf]
    rw [sortParams_eq_of_sorted (sortParams (parseParams u.query))
      (sortParams_sorted (parseParams u.query))]

/-- C8 as stated fails: on `"http://x/a//"` the first pass strips only one of
the two trailing slashes, so a second pass changes the string again. -/
theorem claim_C8_counterexample :
    UrlUtils.normalize (UrlUtils.normalize "http://x/a//") ≠
      UrlUtils.normalize "http://x/a//" := by
  decide

theorem claim_C8_witness :
    UrlUtils.normalize
        (UrlUtils.normalize "https://a.com/p?b=2&a=1") =
      UrlUtils.normalize "https://a.com/p?b=2&a=1" :=
  claim_C8 "https://a.com/p?b=2&a=1" (by
    intro u hu
    have h3 : urlParse ("https://a.com/p?b=2&a=1" : String).data =
        some { scheme := "https".data, host := "a.com".data,
               path := "/p".data, query := "b=2&a=1".data } := by decide
    rw [h3] at hu
    have h4 := (Option.some.injEq _ _).mp hu
    rw [← h4]
    decide)

end UserFlowMapper
